import Mathlib

/-
  Verification of the zcubes core (src/zcubes.c, Booker-Sutherland sums-of-three-cubes
  search).  The file shallowly embeds, over Nat, the parts of the program the claims
  are about:

  * the z-check dispatcher of procd / procdcoprime (zcubes.c lines 82-163);
  * the pdmin derivation of precompute (lines 291-292);
  * the cube-root CRT combination step of enumd / enumcd (lines 214-233, 262-270);
  * the inner prime-power recording loop of enumd (lines 257-280) and the recursive
    closure of enumd together with the per-prime power loop of process_primes
    (lines 407-417) and the k-divisor expansion of prockd (lines 185-189);
  * the six-phase control flow of process_primes (lines 385-522);
  * the argument validation and path selection of main (lines 525-607).

  External collaborators (primes.h, m64.h, b32.h, report.h, kdata.h, cbrts.h,
  zcheck.h) are not part of src/; where a claim depends on them they are modelled
  from the spec, as oracles (reporter predicates), as abstract parameters
  (ZSHORT, ZFEW, cptab, kdmax), or as definitions marked "Modelled from the spec".
-/

/-! ### Dispatcher of procd / procdcoprime (zcubes.c lines 82-163) -/

/-- Modelled from the spec: the fudged zmax bound.  zcubes.c line 571 stores
`zmaxld = zmax128 + (zmax128 >> 62) + 1` as a long double; the spec (section 9)
requires the fudge `zmax + (zmax>>62) + 1` to be preserved exactly, which we do
here in exact natural arithmetic. -/
def zmaxFudge (zmax : ℕ) : ℕ := zmax + zmax / 2 ^ 62 + 1

/-- Modelled from the spec: `fastceilboundl` (external, cstd.h) returns a ceiling
bound of the quotient; modelled as the exact ceiling of the division of naturals. -/
def fastceilbound (num den : ℕ) : ℕ := (num + den - 1) / den

/-- The three z-check collaborators one of which the dispatcher invokes
(zcheck.h, external); `afew` carries the progression length n passed to
`zrcheckafew`. -/
inductive ZCheckCall where
  | one : ZCheckCall
  | afew : ℕ → ZCheckCall
  | lift : ZCheckCall
deriving DecidableEq

/-- The progression length `l = fastceilboundl(zmaxld/((long double)a*b))` computed
by procd (zcubes.c line 103) and procdcoprime (line 150). -/
def progLen (zmax a b : ℕ) : ℕ := fastceilbound (zmaxFudge zmax) (a * b)

/-- The dispatch decision shared by procd (zcubes.c lines 104-130) and
procdcoprime (lines 151-161): with `l` the computed progression length and `ca`
the number of parallel arithmetic progressions, the short branch is taken when
`l <= ZSHORT || l*ca <= ZFEW`, inside which `zrcheckone` is chosen when
`(uint128_t)a*b > zmax128` and `zrcheckafew(..., l)` otherwise; the long branch
calls `zrchecklift`.  ZSHORT and ZFEW are policy constants of zcheck.h
(external), kept as parameters. -/
def procdDispatch (zshort zfew zmax a b ca : ℕ) : ZCheckCall :=
  if progLen zmax a b ≤ zshort ∨ progLen zmax a b * ca ≤ zfew then
    if zmax < a * b then .one else .afew (progLen zmax a b)
  else .lift

/-! ### pdmin derivation in precompute (zcubes.c lines 291-292) -/

/-- The pdmin computation of precompute (zcubes.c lines 291-292):
`pdmin = 1 + dmax / (kdmin ? _min(kdmin,cptab[1]) : cptab[1]); if (pdmin <= k)
pdmin = k+1;`.  `kdmin` and `cptab[1]` are precomputed by the external kdata.h /
cbrts.h collaborators and are passed in as parameters (`kdmin = 0` encodes the
absent case, as in the C ternary). -/
def pdmin (dmax k kdmin cp1 : ℕ) : ℕ :=
  if 1 + dmax / (if kdmin ≠ 0 then min kdmin cp1 else cp1) ≤ k then k + 1
  else 1 + dmax / (if kdmin ≠ 0 then min kdmin cp1 else cp1)

/-- The formula the spec states for pdmin:
`1 + dmax / min(smallest k-coprime prime, smallest cached prime)`. -/
def pdminSpec (dmax kdmin cp1 : ℕ) : ℕ := 1 + dmax / min kdmin cp1

/-! ### Cube roots and the CRT combination step of enumd / enumcd
(zcubes.c lines 214-233 and 262-270) -/

/-- The cube roots of k modulo m, listed in increasing order: the complete set of
z in [0,m) with z^3 = k (mod m).  This is the mathematical set the enumerator
invariant (spec section 3, invariant 1) speaks about. -/
def cubeRootsMod (m k : ℕ) : List ℕ :=
  (List.range m).filter (fun z => z ^ 3 % m == k % m)

/-- The number of cube roots of k modulo m. -/
def nCubeRoots (m k : ℕ) : ℕ := (cubeRootsMod m k).length

/-- Modelled from the spec: `fcrt64` (external CRT helper, b32.h) combines a root
z mod d with a root qz mod a into the root mod a*d, given the call-site arguments
`u = a*(a^-1 mod d) - 1` and `nza = a - qz` computed by enumd (zcubes.c line 263):
the value `(z + u*(z + nza)) mod (a*d)` is congruent to z mod d and to qz mod a,
which is the Chinese-remainder combination the spec (section 4.2) describes. -/
def fcrt64 (u nza z ab : ℕ) : ℕ := (z + u * (z + nza)) % ab

/-- The double loop of enumd (zcubes.c line 266) that fills the scratch buffer r:
for each root qz of k mod a (the new prime power) and each root z of k mod d it
stores `fcrt64(u, a - qz, z, a*d)`. -/
def crtCombine (a d u : ℕ) (qzs zds : List ℕ) : List ℕ :=
  qzs.flatMap (fun qz => zds.map (fun z => fcrt64 u (a - qz) z (a * d)))

/-! ### The inner prime-power recording loop of enumd (zcubes.c lines 257-280) -/

/-- One invocation's recording loop of enumd (zcubes.c lines 257-280), with the
IBATCH buffering flattened away (the batch flush processes exactly the recorded
triples, in order).  State is `(pi, e, q)`: `pi` indexes the external table
`cptab` of cached primes (cbrts.h), `e` is the current exponent and
`q = cptab[pi]^e` the current prime power.  Each iteration with `pi != 0`
records `(q, pi, e)`, advances `q *= cptab[pi]; e++`, and when `d*q > dmax`
drops to the next smaller prime (`q = cptab[--pi]; e = 1`) without re-checking
the bound, exactly as the source does.  `fuel` bounds the iteration count (the C
loop terminates because the table primes are at least 2). -/
def enumdLoop (cptab : ℕ → ℕ) (dmax d : ℕ) : ℕ → ℕ → ℕ → ℕ → List (ℕ × ℕ × ℕ)
  | 0, _, _, _ => []
  | fuel + 1, pi, e, q =>
    if pi = 0 then []
    else
      let q2 := q * cptab pi
      if dmax < d * q2 then
        (q, pi, e) :: enumdLoop cptab dmax d fuel (pi - 1) 1 (cptab (pi - 1))
      else
        (q, pi, e) :: enumdLoop cptab dmax d fuel pi (e + 1) q2

/-! ### The recursive closure of enumd and the per-prime processing loop
(zcubes.c lines 244-281, 401-418, 185-189) -/

/-- c is smooth over the prime list ps: every prime divisor of c appears in ps.
This is the admissibility-by-construction property of cofactors built from the
cached prime table (cptab, external cbrts.h: the table holds exactly the primes
modulo which k has cube roots). -/
def SmoothOver (ps : List ℕ) (c : ℕ) : Prop :=
  ∀ r, r < c + 1 → Nat.Prime r → r ∣ c → r ∈ ps

instance (ps : List ℕ) (c : ℕ) : Decidable (SmoothOver ps c) := by
  unfold SmoothOver; infer_instance

mutual

/-- The branch of enumd that takes on the powers q^1, q^2, ... of one table
prime q at current modulus d (zcubes.c lines 262-280, with the IBATCH batching
flattened: the flush emits each recorded d*q^e via prockd and recurses with
p' = cptab[qpi], i.e. over the primes strictly below q, here the tail qs).
Emits each multiple `d*q^e <= dmax` followed by its recursive extensions. -/
def enumdPow (dmax : ℕ) : ℕ → ℕ → List ℕ → ℕ → List ℕ
  | 0, _, _, _ => []
  | fuel + 1, q, qs, d =>
    if d * q ≤ dmax then
      d * q :: (enumd dmax fuel qs (d * q) ++ enumdPow dmax fuel q qs (d * q))
    else []

/-- The recursive d-enumerator enumd (zcubes.c lines 244-281) abstracted over
the decreasing list ps of cached-table primes available below the current
largest prime (the source walks cptab downward from pimaxp(p-1,d,dmax); a
prime whose first power would already exceed dmax is pruned by the `d*q <=
dmax` guard, matching the pimaxp initialisation and the in-loop prune).
Returns the list of moduli d*c emitted to prockd (the cube-root buffers are
modelled separately by crtCombine). -/
def enumd (dmax : ℕ) : ℕ → List ℕ → ℕ → List ℕ
  | 0, _, _ => []
  | _ + 1, [], _ => []
  | fuel + 1, q :: qs, d => enumdPow dmax fuel q qs d ++ enumd dmax fuel qs d

end

/-- The per-prime processing loop of process_primes phase 1 (zcubes.c lines
407-417): for each power pp = p^e <= dmax of the driving prime p, the modulus pp
is handed to prockd and then extended by enumd over the table primes below p.
`fuelP` bounds the power loop (the source bounds it by the largest power of p
not exceeding dmax). -/
def powProc (dmax fuel : ℕ) (ps : List ℕ) (p : ℕ) : ℕ → ℕ → List ℕ
  | 0, _ => []
  | fuelP + 1, pp =>
    if pp ≤ dmax then
      (pp :: enumd dmax fuel ps pp) ++ powProc dmax fuel ps p fuelP (pp * p)
    else []

/-- All moduli d emitted to prockd while process_primes handles one driving
prime p (phase-1 pattern, zcubes.c lines 407-417): the powers of p and their
enumd extensions. -/
def processP (dmax fuel : ℕ) (ps : List ℕ) (p : ℕ) : List ℕ :=
  powProc dmax fuel ps p dmax p

/-- The k-divisor classes prockd (zcubes.c lines 185-189) combines a coprime
modulus d with: class 0 is the procdcoprime call, then procd(ki,...) for
ki = 1, 2, ... as long as `d <= kdmax[ki]` (kdmax is the external kdata.h table
`kdmax[ki] = dmax / kdtab[ki].d`, with kdcnt entries and a stopping sentinel). -/
def kdCalls (kdmax : ℕ → ℕ) (kdcnt d : ℕ) : List ℕ :=
  0 :: (List.range' 1 kdcnt).takeWhile (fun ki => d ≤ kdmax ki)

/-- The full list of per-d dispatcher invocations (d, ki) generated while one
driving prime p is processed: every modulus emitted to prockd, expanded by its
k-divisor classes. -/
def procdCalls (dmax fuel : ℕ) (ps : List ℕ) (p : ℕ) (kdmax : ℕ → ℕ) (kdcnt : ℕ) :
    List (ℕ × ℕ) :=
  (processP dmax fuel ps p).flatMap
    (fun d => (kdCalls kdmax kdcnt d).map (fun ki => (d, ki)))

/-- The prime table hypotheses: ps lists primes in strictly decreasing order
(cptab is sorted increasing and is walked downward). -/
def DecPrimes (ps : List ℕ) : Prop :=
  List.Chain' (· > ·) ps ∧ ∀ q ∈ ps, Nat.Prime q

instance (ps : List ℕ) : Decidable (DecPrimes ps) := by
  unfold DecPrimes; infer_instance

/-- The values enumd dmax fuel ps d emits: proper multiples d*c <= dmax of d
whose cofactor c >= 2 is built from the primes of ps. -/
def CondD (dmax : ℕ) (ps : List ℕ) (d v : ℕ) : Prop :=
  d ∣ v ∧ 2 ≤ v / d ∧ v ≤ dmax ∧ SmoothOver ps (v / d)

instance (dmax : ℕ) (ps : List ℕ) (d v : ℕ) : Decidable (CondD dmax ps d v) := by
  unfold CondD; infer_instance

/-- The values enumdPow dmax fuel q qs d emits: multiples d*q^e*c <= dmax with
e >= 1 and c built from the primes of qs - equivalently, v/d is divisible by q
and smooth over q :: qs. -/
def CondQ (dmax : ℕ) (q : ℕ) (qs : List ℕ) (d v : ℕ) : Prop :=
  d ∣ v ∧ v ≠ 0 ∧ v ≤ dmax ∧ q ∣ (v / d) ∧ SmoothOver (q :: qs) (v / d)

instance (dmax q : ℕ) (qs : List ℕ) (d v : ℕ) : Decidable (CondQ dmax q qs d v) := by
  unfold CondQ; infer_instance

/-- The values powProc dmax fuel ps p fuelP pp emits: multiples pp*p^e*c <=
dmax with e >= 0 and c built from the primes of ps - equivalently, v/pp is
smooth over p :: ps. -/
def CondPow (dmax p : ℕ) (ps : List ℕ) (pp v : ℕ) : Prop :=
  pp ∣ v ∧ v ≠ 0 ∧ v ≤ dmax ∧ SmoothOver (p :: ps) (v / pp)

instance (dmax p : ℕ) (ps : List ℕ) (pp v : ℕ) :
    Decidable (CondPow dmax p ps pp v) := by
  unfold CondPow; infer_instance

/-! ### The six-phase driver process_primes (zcubes.c lines 385-522) -/

/-- The six phases of process_primes, in source order (the PHASE_* constants of
report.h, external; the spec fixes their order). -/
inductive Phase where
  | cached : Phase
  | uncached : Phase
  | cocached : Phase
  | nearprime : Phase
  | prime : Phase
  | bigprime : Phase
deriving DecidableEq

/-- Modelled from the spec: the numeric PHASE_* ids of report.h, in the
monotone order PHASE_CACHED < PHASE_UNCACHED < PHASE_COCACHED < PHASE_NEARPRIME
< PHASE_PRIME < PHASE_BIGPRIME the spec states. -/
def phaseId : Phase → ℕ
  | .cached => 1
  | .uncached => 2
  | .cocached => 3
  | .nearprime => 4
  | .prime => 5
  | .bigprime => 6

/-- Observable events of one process_primes execution: a report_phase call at a
phase boundary, or the per-prime work done for one pulled prime inside a phase
(the bodies - prockd/enumd/enumcd/procdcoprime/procdbigprime calls - are
abstracted into a single work event; they are modelled separately above). -/
inductive Ev where
  | phase : Phase → Ev
  | work : Phase → ℕ → Ev
deriving DecidableEq

/-- The environment of one process_primes run: the precomputed thresholds
(cpmax < cdmin <= sdmin <= pdmin <= bpmin, cbrts.h/precompute, external), the
pipe end pmax, and the reporter oracles of report.h (external): rpPhase is
report_phase, rpP is report_p, rpC is report_c on the root count nRoots p
(cuberoots_modp, external), and cachedHit tells whether the phase-1 scan finds
p in cptab. -/
structure PEnv where
  cpmax : ℕ
  cdmin : ℕ
  sdmin : ℕ
  pdminT : ℕ
  bpmin : ℕ
  pmax : ℕ
  rpPhase : Phase → Bool
  rpP : ℕ → Bool
  nRoots : ℕ → ℕ
  rpC : ℕ → Bool
  cachedHit : ℕ → Bool

/-- primes_read_pipe returns 2^64-1 once the stream is exhausted
(zcubes.c line 395 comment). -/
def pipeEnd : ℕ := 2 ^ 64 - 1

/-- The phase-1 per-prime body (zcubes.c lines 404-417): skip if report_p is
false, skip if the cptab scan misses p, skip if report_c is false, else work. -/
def body1 (env : PEnv) (p : ℕ) : List Ev :=
  if env.rpP p then
    if env.cachedHit p then
      if env.rpC (env.nRoots p) then [.work .cached p] else []
    else []
  else []

/-- The per-prime body of phases 2-6 (e.g. zcubes.c lines 431-434): skip if
report_p is false, skip if there are no cube roots of k mod p or report_c is
false, else work. -/
def bodyN (env : PEnv) (ph : Phase) (p : ℕ) : List Ev :=
  if env.rpP p then
    if env.nRoots p ≠ 0 && env.rpC (env.nRoots p) then [.work ph p] else []
  else []

/-- One phase loop `for ( ; cond(p) ; p = primes_read_pipe(...) ) body(p)`:
processes the current prime while cond holds, pulling the next prime from the
stream (the sentinel pipeEnd once the stream is exhausted; the program relies on
the sentinel failing every phase condition, so the model stops reading there).
Returns the emitted events, the first p failing the condition, and the unread
rest of the stream. -/
def phaseLoop (cond : ℕ → Bool) (body : ℕ → List Ev) :
    ℕ → List ℕ → List Ev × ℕ × List ℕ
  | p, rest =>
    if cond p then
      match rest with
      | [] => (body p, pipeEnd, [])
      | x :: xs =>
        let r := phaseLoop cond body x xs
        (body p ++ r.1, r.2.1, r.2.2)
    else ([], p, rest)

/-- One step of the phase chain of process_primes (each of zcubes.c lines
428-436, 439-447, 450-467, 470-478, 481-518): run this phase's per-prime loop,
emit the report_phase boundary event - whose result the source does NOT check
for these phases - then `if (p > pmax) goto done`, else continue with the
remaining phases. -/
def runPhases (env : PEnv) : List (Phase × (ℕ → Bool)) → ℕ → List ℕ → List Ev
  | [], _, _ => []
  | (ph, cond) :: rest, p, stream =>
    let s := phaseLoop cond (bodyN env ph) p stream
    s.1 ++ Ev.phase ph ::
      (if env.pmax < s.2.1 then [] else runPhases env rest s.2.1 s.2.2)

/-- The phases 2-6 of process_primes with their loop conditions, in source
order (zcubes.c lines 430, 441, 454, 472, 490/503). -/
def laterPhases (env : PEnv) : List (Phase × (ℕ → Bool)) :=
  [(.uncached, fun p => p < env.cdmin && p ≤ env.pmax),
   (.cocached, fun p => p < env.sdmin && p ≤ env.pmax),
   (.nearprime, fun p => p < env.pdminT && p ≤ env.pmax),
   (.prime, fun p => p < env.bpmin && p ≤ env.pmax),
   (.bigprime, fun p => p ≤ env.pmax)]

/-- The six-phase control flow of process_primes (zcubes.c lines 385-522)
starting from the first prime p read from the pipe and the remaining stream.
Faithful to the source: the initial `if (p > pmax) return` (line 393); the
phase-1 loop guarded by `p <= cpmax` (lines 401-419); the boundary
`if (!report_phase(PHASE_CACHED)) goto done` (line 420), the only phase
boundary whose result IS checked; then phases 2-6 via runPhases, with the
`if (p > pmax) goto done` short-circuits between phases. -/
def processPrimesAt (env : PEnv) (p : ℕ) (rest : List ℕ) : List Ev :=
  if env.pmax < p then [] else
  let s1 := if p ≤ env.cpmax then
      phaseLoop (fun q => q ≤ env.cpmax && q ≤ env.pmax) (body1 env) p rest
    else ([], p, rest)
  s1.1 ++ Ev.phase .cached ::
    (if env.rpPhase .cached = false then [] else
     if env.pmax < s1.2.1 then [] else
     runPhases env (laterPhases env) s1.2.1 s1.2.2)

/-- One process_primes execution over the stream of primes delivered to this
worker: read the first prime (the sentinel if the stream is empty, zcubes.c
line 392) and run the phase chain. -/
def processPrimes (env : PEnv) (stream : List ℕ) : List Ev :=
  match stream with
  | [] => processPrimesAt env pipeEnd []
  | x :: xs => processPrimesAt env x xs

/-- The phase id of a phase-boundary event, none for work events. -/
def phaseOf : Ev → Option Phase
  | .phase ph => some ph
  | .work _ _ => none

/-- The short-circuit property claim C5 asserts of a trace: whenever a phase
boundary whose report_phase call returned false appears, nothing follows it
(the routine jumped to done). -/
def shortCircuits (rp : Phase → Bool) : List Ev → Prop
  | [] => True
  | .phase ph :: rest => (rp ph = false → rest = []) ∧ shortCircuits rp rest
  | .work _ _ :: rest => shortCircuits rp rest

/-- An event that belongs to the cached phase: its boundary marker or its
per-prime work. -/
def cachedOnly : Ev → Bool
  | .phase .cached => true
  | .work .cached _ => true
  | _ => false

def shortCircuitsDec (rp : Phase → Bool) : (tr : List Ev) → Decidable (shortCircuits rp tr)
  | [] => isTrue trivial
  | .phase _ :: rest => @instDecidableAnd _ _ inferInstance (shortCircuitsDec rp rest)
  | .work _ _ :: rest => shortCircuitsDec rp rest

instance (rp : Phase → Bool) (tr : List Ev) : Decidable (shortCircuits rp tr) :=
  shortCircuitsDec rp tr

/-! ### The supervisor main (zcubes.c lines 525-641) -/

/-- Modelled from the spec: `goodk` (external, kdata.h) accepts k in [1,1000]
congruent to 3 or 6 mod 9 (spec section 3 and the error text at zcubes.c line
543). -/
def goodk (k : ℕ) : Bool := 1 ≤ k && k ≤ 1000 && (k % 9 == 3 || k % 9 == 6)

/-- The parsed pmin/pmax arguments: either plain integers, or both of the form
P0xQ (zcubes.c lines 548-559; the string-level parsing of strchr/memcmp is
abstracted into this sum type, the arithmetic checks are modelled below). -/
inductive ArgsForm where
  | plain : ℕ → ℕ → ArgsForm
  | xform : ℕ → ℕ → ℕ → ArgsForm
deriving DecidableEq

/-- The inputs of main after parsing: argument count, worker count argument,
available processor count (get_nprocs), k, the pmin/pmax form, dmax, zmax, the
optional options argument (atoi(argv[7]) when argc > 7), the build-mode
predicates profiling() and reporting() (report.h, external), and the
report_phase(PHASE_PRECOMPUTE) checkpoint result (zcubes.c line 593). -/
structure MainArgs where
  nargs : ℕ
  cores : ℕ
  nprocs : ℕ
  k : ℕ
  form : ArgsForm
  dmax : ℕ
  zmax : ℕ
  optArg : ℕ
  profilingF : Bool
  reportingF : Bool
  rpPrecompute : Bool
deriving DecidableEq

/-- How one run of main resolves: print usage and return 0 (line 532); report
an argument error and return -1; exit 0 at the PHASE_PRECOMPUTE checkpoint
(line 593); run the single-process profiling loop (lines 595-598); or fork the
workers, each of which runs process_subprimes when p0 > 1 and process_primes
otherwise (line 607) - `run p0 pmin pmax sub` with `sub = (p0 > 1)`. -/
inductive MainResult where
  | usage : MainResult
  | argError : MainResult
  | checkpointExit : MainResult
  | profileRun : MainResult
  | run : ℕ → ℕ → ℕ → Bool → MainResult
deriving DecidableEq

/-- The exit code of the terminal results: usage and the checkpoint exit return
0, an argument error returns -1; for a full run the parent exits 0 when every
child exits normally (zcubes.c lines 622-640). -/
def exitCode : MainResult → ℤ
  | .usage => 0
  | .argError => -1
  | .checkpointExit => 0
  | .profileRun => 0
  | .run _ _ _ _ => 0

/-- The tail of main after p0/pmin/pmax are fixed (zcubes.c lines 561-607):
the p0|k check (line 563; the nonprime-p0 and no-cube-roots checks at lines
561-562 print warnings only and have no observable effect here), the pmin
clamp and pmin<=pmax check (lines 564-565), the zmax bit-length check (line
569, ui128_len(zmax) > ZMAXBITS iff zmax >= 2^ZMAXBITS), the opts selection
(line 574), the p0 <= sqrt(dmax) check (line 576, modelled by the equivalent
integer comparison dmax < p0*p0), the bound checks of line
577, the zmin feasibility check of lines 578-579 (the long double constant
3.847322101863072639 and zmaxld are modelled exactly as rationals, scaled by
10^18), the PHASE_PRECOMPUTE checkpoint (line 593) and the profiling branch
(line 595). -/
def mainTail (ZMAXBITS : ℕ) (a : MainArgs) (p0 pmin0 pmax : ℕ) : MainResult :=
  if 1 < p0 ∧ a.k % p0 = 0 then .argError else
  let pmin := if pmin0 < 2 then 2 else pmin0
  if pmax < pmin then .argError else
  if 2 ^ ZMAXBITS ≤ a.zmax then .argError else
  let opts := if a.reportingF && decide (7 < a.nargs) then a.optArg else 0
  if a.dmax < p0 * p0 then .argError else
  if pmax < pmin ∨ a.dmax < p0 * pmax ∨ a.zmax < a.dmax then .argError else
  if 10 ^ 18 * zmaxFudge a.zmax < 3847322101863072639 * a.dmax ∧ opts = 0 then .argError else
  if a.rpPrecompute = false then .checkpointExit else
  if a.profilingF then .profileRun else
  .run p0 pmin pmax (decide (1 < p0))

/-- The argument validation and path selection of main (zcubes.c lines
525-607): the usage banner for argc < 7 (line 532), the cores adjustment for
profiling and cores=0 (lines 537-540), the k and dmax checks (lines 543-546),
and the two pmin/pmax forms - P0xQ with its p0 >= 2, pmax <= p0 and
no-profiling/options checks (lines 548-555), or plain integers where p0 is
split off only when more than one core is in use, pmin = pmax and pmax <=
sqrt(dmax) (line 559; the C compares against the double sqrt, modelled by the
equivalent integer comparison pmax*pmax <= dmax). -/
def mainModel (DMAX ZMAXBITS : ℕ) (a : MainArgs) : MainResult :=
  if a.nargs < 7 then .usage else
  let cores1 := if a.profilingF && decide (a.cores ≠ 1) then 1 else a.cores
  let cores := if cores1 = 0 then a.nprocs else cores1
  if ¬ goodk a.k then .argError else
  if DMAX < a.dmax then .argError else
  match a.form with
  | .xform p0 q1 q2 =>
    if p0 < 2 then .argError else
    if p0 < q2 then .argError else
    if a.profilingF || (decide (7 < a.nargs) && decide (a.optArg ≠ 0)) then .argError else
    mainTail ZMAXBITS a p0 q1 q2
  | .plain pmin pmax =>
    if 1 < cores ∧ pmin = pmax ∧ pmax * pmax ≤ a.dmax then
      mainTail ZMAXBITS a pmin 2 pmax
    else
      mainTail ZMAXBITS a 1 pmin pmax

/-! ### Theorems -/

/-- Claim C1: for every d accepted by report_d and dispatched by procd (coprime
part a, k-divisor part kdtab[ki].d) or procdcoprime (a = d), with b the residue
modulus and l the computed progression length: if a*b > zmax the dispatcher
calls zrcheckone; if (l <= ZSHORT or l*ca <= ZFEW) and a*b <= zmax it calls
zrcheckafew with progression length l; otherwise it calls zrchecklift.  The
zrcheckone case needs only ZSHORT >= 2, because a*b > zmax forces l <= 2. -/
theorem c1_dispatch_correct (zshort zfew zmax a b ca : ℕ) (hshort : 2 ≤ zshort) :
    (zmax < a * b → procdDispatch zshort zfew zmax a b ca = .one) ∧
    ((progLen zmax a b ≤ zshort ∨ progLen zmax a b * ca ≤ zfew) ∧ a * b ≤ zmax →
      procdDispatch zshort zfew zmax a b ca = .afew (progLen zmax a b)) ∧
    (¬(progLen zmax a b ≤ zshort ∨ progLen zmax a b * ca ≤ zfew) ∧ a * b ≤ zmax →
      procdDispatch zshort zfew zmax a b ca = .lift) := by
  refine ⟨fun h => ?_, fun h => ?_, fun h => ?_⟩
  · have hm : 0 < a * b := lt_of_le_of_lt (Nat.zero_le _) h
    have h62 : zmax / 2 ^ 62 ≤ zmax := Nat.div_le_self _ _
    have hf : zmaxFudge zmax + (a * b) - 1 < 3 * (a * b) := by
      unfold zmaxFudge; omega
    have hl : progLen zmax a b ≤ 2 := by
      unfold progLen fastceilbound
      have h3 := (Nat.div_lt_iff_lt_mul hm).mpr hf
      omega
    unfold procdDispatch
    rw [if_pos (Or.inl (le_trans hl hshort)), if_pos h]
  · unfold procdDispatch
    rw [if_pos h.1, if_neg (not_lt.mpr h.2)]
  · unfold procdDispatch
    rw [if_neg h.1]

/-- Witness for C1 at a concrete input: zmax = 100, a = 101, b = 1, one parallel
progression, ZSHORT = 2, ZFEW = 0; a*b > zmax, so zrcheckone is chosen. -/
theorem c1_dispatch_correct_witness :
    procdDispatch 2 0 100 101 1 1 = ZCheckCall.one :=
  (c1_dispatch_correct 2 0 100 101 1 1 (by decide)).1 (by decide)

/-- Counterexample to claim C9 as stated: with dmax = 30, k = 33 (a valid k),
kdmin = 2 and cptab[1] = 2, the code computes 1 + 30/2 = 16 <= k and therefore
clamps pdmin to k + 1 = 34, while the spec formula gives 16. -/
theorem c9_counterexample :
    pdmin 30 33 2 2 = 34 ∧ pdminSpec 30 2 2 = 16 ∧
      pdmin 30 33 2 2 ≠ pdminSpec 30 2 2 := by
  refine ⟨by decide, by decide, by decide⟩

/-- Claim C9 amended: after precomputation pdmin equals
1 + dmax / min(kdmin, cptab[1]) whenever that value exceeds k; otherwise the
code clamps pdmin to k + 1 (zcubes.c line 292), which the claim omits. -/
theorem c9_pdmin_formula (dmax k kdmin cp1 : ℕ) (hk : kdmin ≠ 0)
    (h : k < 1 + dmax / min kdmin cp1) :
    pdmin dmax k kdmin cp1 = pdminSpec dmax kdmin cp1 := by
  unfold pdmin pdminSpec
  rw [if_pos hk, if_neg (by omega)]

/-- Witness for the amended C9: dmax = 1000, k = 33, kdmin = 3, cptab[1] = 2:
pdmin = 1 + 1000/2 = 501 matches the spec formula. -/
theorem c9_pdmin_formula_witness : pdmin 1000 33 3 2 = pdminSpec 1000 3 2 :=
  c9_pdmin_formula 1000 33 3 2 (by decide) (by decide)

/-- Claim C10: when main is invoked with fewer than 7 positional arguments it
prints the usage banner and returns exit code 0, not -1 (zcubes.c line 532). -/
theorem c10_usage_exit_zero (DMAX ZMAXBITS : ℕ) (a : MainArgs) (h : a.nargs < 7) :
    mainModel DMAX ZMAXBITS a = .usage ∧
      exitCode (mainModel DMAX ZMAXBITS a) = 0 := by
  have hu : mainModel DMAX ZMAXBITS a = .usage := by
    unfold mainModel; rw [if_pos h]
  exact ⟨hu, by rw [hu]; rfl⟩

/-- Witness for C10 at a concrete input with 6 arguments. -/
theorem c10_usage_exit_zero_witness :
    mainModel 1000000 128 ⟨6, 1, 4, 33, .plain 2 10, 1000, 100000, 0,
        false, true, true⟩ = .usage ∧
      exitCode (mainModel 1000000 128 ⟨6, 1, 4, 33, .plain 2 10, 1000, 100000, 0,
        false, true, true⟩) = 0 :=
  c10_usage_exit_zero 1000000 128 _ (by decide)

/-- Counterexample to claim C7 as stated: with a single worker (n = 1) and
pmin = pmax = 5, 5 prime and 5 <= sqrt(10000), all validations pass yet the
supervisor takes the plain process_primes path (p0 stays 1): the split at
zcubes.c line 559 additionally requires cores > 1, which the claim omits. -/
theorem c7_counterexample :
    Nat.Prime 5 ∧ 5 * 5 ≤ 10000 ∧
      mainModel 10000000 128
          ⟨7, 1, 4, 33, ArgsForm.plain 5 5, 10000, 1000000, 0, false, true, true⟩ =
        MainResult.run 1 5 5 false := by
  refine ⟨by norm_num, by decide, by decide⟩

/-- Claim C7 amended: if pmin and pmax are plain integers with pmin = pmax = p0,
p0 prime and at most sqrt(dmax), AND more than one worker is configured
(zcubes.c line 559 requires cores > 1, omitted by the claim), p0 does not
divide k, and the remaining validations pass, then the supervisor takes the
subprimes path (p0 set, pmin reset to 2, process_subprimes in each worker);
and if pmin > pmax the supervisor reports an argument error and exits -1. -/
theorem c7_subprimes_boundary (DMAX ZMAXBITS : ℕ) (a : MainArgs)
    (pm pmin2 pmax2 : ℕ) :
    (a.form = .plain pm pm → a.profilingF = false → 1 < a.cores →
      goodk a.k = true → a.dmax ≤ DMAX → 7 ≤ a.nargs → Nat.Prime pm →
      pm * pm ≤ a.dmax → a.k % pm ≠ 0 → a.zmax < 2 ^ ZMAXBITS →
      a.dmax ≤ a.zmax →
      3847322101863072639 * a.dmax ≤ 10 ^ 18 * zmaxFudge a.zmax →
      a.rpPrecompute = true →
      mainModel DMAX ZMAXBITS a = .run pm 2 pm true) ∧
    (a.form = .plain pmin2 pmax2 → pmax2 < pmin2 → goodk a.k = true →
      a.dmax ≤ DMAX → 7 ≤ a.nargs →
      mainModel DMAX ZMAXBITS a = .argError ∧
        exitCode (mainModel DMAX ZMAXBITS a) = -1) := by
  constructor
  · intro hform hprof hcores hk hdmax hnargs hp hsqrt hkp hz hdz hzmin hrp
    have hc2 : 2 ≤ pm := hp.two_le
    unfold mainModel
    rw [if_neg (by omega : ¬ a.nargs < 7), hform, hprof]
    simp only [Bool.false_and, if_false, Bool.false_eq_true]
    rw [if_neg (by omega : ¬ a.cores = 0), hk]
    simp only [not_true_eq_false, if_false]
    rw [if_neg (not_lt.mpr hdmax)]
    rw [if_pos ⟨hcores, trivial, hsqrt⟩]
    unfold mainTail
    rw [if_neg (fun hc => hkp hc.2)]
    rw [if_neg (by omega : ¬ (2 : ℕ) < 2)]
    rw [if_neg (by omega : ¬ pm < 2)]
    rw [if_neg (not_le.mpr hz)]
    rw [if_neg (not_lt.mpr hsqrt)]
    rw [if_neg (by omega : ¬ (pm < 2 ∨ a.dmax < pm * pm ∨ a.zmax < a.dmax))]
    rw [if_neg (fun hc => absurd hc.1 (not_lt.mpr hzmin))]
    rw [hrp]
    simp only [Bool.true_eq_false, if_false]
    rw [hprof, if_neg Bool.false_ne_true, decide_eq_true hp.one_lt]
  · intro hform hlt hk hdmax hnargs
    have hm : mainModel DMAX ZMAXBITS a = .argError := by
      unfold mainModel
      rw [if_neg (by omega : ¬ a.nargs < 7), hform, hk]
      simp only [not_true_eq_false, if_false]
      rw [if_neg (not_lt.mpr hdmax)]
      rw [if_neg (fun hc => absurd hc.2.1 (by omega : pmin2 ≠ pmax2))]
      unfold mainTail
      rw [if_neg (by omega : ¬ ((1 : ℕ) < 1 ∧ a.k % 1 = 0))]
      have hlt2 : pmax2 < (if pmin2 < 2 then 2 else pmin2) := by
        by_cases h : pmin2 < 2
        · rw [if_pos h]; omega
        · rw [if_neg h]; omega
      rw [if_pos hlt2]
    exact ⟨hm, by rw [hm]; rfl⟩

/-- Witness for the amended C7 at concrete inputs: with 2 workers, k = 33,
pmin = pmax = 5, dmax = 10000, zmax = 10^6 the subprimes path is taken; with
pmin = 9 > pmax = 3 the supervisor reports an argument error and exits -1. -/
theorem c7_subprimes_boundary_witness :
    mainModel 10000000 128
        ⟨7, 2, 4, 33, ArgsForm.plain 5 5, 10000, 1000000, 0, false, true, true⟩ =
      MainResult.run 5 2 5 true ∧
    mainModel 10000000 128
        ⟨7, 2, 4, 33, ArgsForm.plain 9 3, 10000, 1000000, 0, false, true, true⟩ =
      MainResult.argError :=
  ⟨(c7_subprimes_boundary 10000000 128 _ 5 9 3).1 rfl rfl (by decide) (by decide)
      (by decide) (by decide) (by norm_num) (by decide) (by decide) (by decide)
      (by decide) (by decide) rfl,
   ((c7_subprimes_boundary 10000000 128 _ 5 9 3).2 rfl (by decide) (by decide)
      (by decide) (by decide)).1⟩

/-- Counterexample to claim C8 as stated: P0 = 4 is not prime, yet with
pmin = 4x2, pmax = 4x3, k = 33, dmax = 100, zmax = 10^6 the supervisor does not
report an argument error: zcubes.c line 561 only prints a WARNING for a
nonprime P0 and the run proceeds (the workers then find nothing to do). -/
theorem c8_counterexample :
    ¬ Nat.Prime 4 ∧
      mainModel 10000000 128
          ⟨7, 1, 4, 33, ArgsForm.xform 4 2 3, 100, 1000000, 0, false, true, true⟩ =
        MainResult.run 4 2 3 true := by
  refine ⟨by norm_num, by decide⟩

/-- Claim C8 amended: in the P0xQ form the supervisor treats only P0 | k as an
argument error (exit -1, zcubes.c line 563); a nonprime P0 or a P0 = 1 mod 3
modulo which k has no cube root only produce warnings (lines 561-562) and the
run proceeds. -/
theorem c8_xform_p0_divides_k (DMAX ZMAXBITS : ℕ) (a : MainArgs) (p0 q1 q2 : ℕ) :
    a.form = .xform p0 q1 q2 → 7 ≤ a.nargs → goodk a.k = true →
    a.dmax ≤ DMAX → 2 ≤ p0 → q2 ≤ p0 →
    a.profilingF = false → a.optArg = 0 → a.k % p0 = 0 →
    mainModel DMAX ZMAXBITS a = .argError ∧
      exitCode (mainModel DMAX ZMAXBITS a) = -1 := by
  intro hform hnargs hk hdmax hp0 hq2 hprof hopt hkdvd
  have hm : mainModel DMAX ZMAXBITS a = .argError := by
    unfold mainModel
    rw [if_neg (by omega : ¬ a.nargs < 7), hform, hk]
    simp only [not_true_eq_false, if_false]
    rw [if_neg (not_lt.mpr hdmax)]
    rw [if_neg (by omega : ¬ p0 < 2), if_neg (by omega : ¬ p0 < q2)]
    rw [if_neg (by simp [hprof, hopt] :
      ¬ (a.profilingF || (decide (7 < a.nargs) && decide (a.optArg ≠ 0))) = true)]
    unfold mainTail
    rw [if_pos ⟨by omega, hkdvd⟩]
  exact ⟨hm, by rw [hm]; rfl⟩

/-- Witness for the amended C8 at a concrete input: P0 = 3 divides k = 33, so
the supervisor reports an argument error and exits -1. -/
theorem c8_xform_p0_divides_k_witness :
    mainModel 10000000 128
        ⟨7, 1, 4, 33, ArgsForm.xform 3 2 3, 100, 1000000, 0, false, true, true⟩ =
      MainResult.argError ∧
    exitCode (mainModel 10000000 128
        ⟨7, 1, 4, 33, ArgsForm.xform 3 2 3, 100, 1000000, 0, false, true, true⟩) = -1 :=
  c8_xform_p0_divides_k 10000000 128 _ 3 2 3 rfl (by decide) (by decide) (by decide)
    (by decide) (by decide) rfl rfl (by decide)

/-- Claim C4: at every step of the enumd recording loop, every prime power q
appended to the current d satisfies d*q <= dmax; the bound is established
before q is recorded (by the pimaxp initialisation, here the hypotheses on the
starting index) and a branch whose d*q would exceed dmax is pruned by dropping
to the next smaller table prime, which can only shrink q.  The hypotheses state
that cptab is sorted below the starting index pi0 (it is the sorted table of
cached primes, cbrts.h) and that the starting prime power satisfies the bound,
which is what pimaxp(p-1,d,dmax) guarantees at zcubes.c line 254. -/
theorem c4_enumd_bound (cptab : ℕ → ℕ) (dmax d : ℕ) (pi0 : ℕ)
    (hmono : ∀ i, 1 ≤ i → i ≤ pi0 → cptab i ≤ cptab pi0)
    (hstart : d * cptab pi0 ≤ dmax) :
    ∀ fuel pi e q, pi ≤ pi0 → (1 ≤ pi → d * q ≤ dmax) →
      ∀ r ∈ enumdLoop cptab dmax d fuel pi e q, d * r.1 ≤ dmax := by
  intro fuel
  induction fuel with
  | zero => intro pi e q _ _ r hr; simp [enumdLoop] at hr
  | succ fuel ih =>
    intro pi e q hpi hq r hr
    unfold enumdLoop at hr
    by_cases hpi0 : pi = 0
    · rw [if_pos hpi0] at hr; simp at hr
    · rw [if_neg hpi0] at hr
      have hpi1 : 1 ≤ pi := Nat.one_le_iff_ne_zero.mpr hpi0
      by_cases hbig : dmax < d * (q * cptab pi)
      · rw [if_pos hbig] at hr
        rcases List.mem_cons.mp hr with hr | hr
        · subst hr; exact hq hpi1
        · refine ih (pi - 1) 1 (cptab (pi - 1)) (by omega) (fun h1 => ?_) r hr
          exact le_trans (Nat.mul_le_mul_left d (hmono (pi - 1) h1 (by omega))) hstart
      · rw [if_neg hbig] at hr
        rcases List.mem_cons.mp hr with hr | hr
        · subst hr; exact hq hpi1
        · exact ih pi (e + 1) (q * cptab pi) hpi (fun _ => not_lt.mp hbig) r hr

/-- Witness for C4 at a concrete input: table primes cptab = [_,2,3,5], d = 7,
dmax = 200, starting at pi0 = 3 (7*5 <= 200); the record (25, 3, 2) - the
power 5^2 recorded just before the drop to the next smaller prime - satisfies
7*25 <= 200. -/
theorem c4_enumd_bound_witness : 7 * 25 ≤ 200 :=
  c4_enumd_bound (fun i => [0, 2, 3, 5].getD i 0) 200 7 3
    (by decide) (by decide) 20 3 1 5 (by decide) (fun _ => by decide)
    (25, 3, 2) (by decide)

/-- Every event the phase-1 body emits is phase-1 work for its prime. -/
theorem body1_mem (env : PEnv) (p : ℕ) (ev : Ev) (hev : ev ∈ body1 env p) :
    ev = Ev.work .cached p := by
  unfold body1 at hev
  split_ifs at hev <;> simp_all

/-- Every event a phase-N body emits is work for that phase and its prime. -/
theorem bodyN_mem (env : PEnv) (ph : Phase) (p : ℕ) (ev : Ev)
    (hev : ev ∈ bodyN env ph p) : ev = Ev.work ph p := by
  unfold bodyN at hev
  split_ifs at hev <;> simp_all

/-- Events of a phase loop all satisfy any property its body's events satisfy. -/
theorem phaseLoop_mem {P : Ev → Prop} (cond : ℕ → Bool) (body : ℕ → List Ev)
    (hbody : ∀ p ev, ev ∈ body p → P ev) :
    ∀ (rest : List ℕ) (p : ℕ) (ev : Ev), ev ∈ (phaseLoop cond body p rest).1 → P ev := by
  intro rest
  induction rest with
  | nil =>
    intro p ev hev
    unfold phaseLoop at hev
    by_cases hc : cond p
    · rw [if_pos hc] at hev; exact hbody p ev hev
    · rw [if_neg hc] at hev; simp at hev
  | cons x xs ih =>
    intro p ev hev
    unfold phaseLoop at hev
    by_cases hc : cond p
    · rw [if_pos hc] at hev
      simp only [List.mem_append] at hev
      rcases hev with h | h
      · exact hbody p ev h
      · exact ih x ev h
    · rw [if_neg hc] at hev; simp at hev

/-- Claim C6: within one worker (one execution of process_primes), report_phase
is called with strictly increasing phase ids: each id at most once, in the
order PHASE_CACHED, PHASE_UNCACHED, PHASE_COCACHED, PHASE_NEARPRIME,
PHASE_PRIME, PHASE_BIGPRIME - for every environment and prime stream, the
phase-boundary events of the trace carry strictly increasing ids. -/
theorem c6_monotone_phase_ids (env : PEnv) (stream : List ℕ) :
    List.Sorted (· < ·)
      (((processPrimes env stream).filterMap phaseOf).map phaseId) := by
  have hseg1 : ∀ (cond : ℕ → Bool) (p : ℕ) (rest : List ℕ),
      ((phaseLoop cond (body1 env) p rest).1).filterMap phaseOf = [] := by
    intro cond p rest
    refine List.filterMap_eq_nil_iff.mpr (fun ev hev => ?_)
    have h := phaseLoop_mem (P := fun ev => phaseOf ev = none) cond (body1 env)
      (fun p2 ev2 h2 => by rw [body1_mem env p2 ev2 h2]; rfl) rest p ev hev
    exact h
  have hsegN : ∀ (ph : Phase) (cond : ℕ → Bool) (p : ℕ) (rest : List ℕ),
      ((phaseLoop cond (bodyN env ph) p rest).1).filterMap phaseOf = [] := by
    intro ph cond p rest
    refine List.filterMap_eq_nil_iff.mpr (fun ev hev => ?_)
    have h := phaseLoop_mem (P := fun ev => phaseOf ev = none) cond (bodyN env ph)
      (fun p2 ev2 h2 => by rw [bodyN_mem env ph p2 ev2 h2]; rfl) rest p ev hev
    exact h
  have hrun : ∀ (phs : List (Phase × (ℕ → Bool))) (p : ℕ) (s : List ℕ),
      ((runPhases env phs p s).filterMap phaseOf).Sublist (phs.map Prod.fst) := by
    intro phs
    induction phs with
    | nil => intro p s; simp [runPhases]
    | cons x rest ih =>
      intro p s
      obtain ⟨ph, cond⟩ := x
      simp only [runPhases, List.filterMap_append, List.filterMap_cons,
        hsegN ph cond p s, List.nil_append, List.map_cons, phaseOf]
      by_cases hb : env.pmax < (phaseLoop cond (bodyN env ph) p s).2.1
      · rw [if_pos hb]
        exact List.Sublist.cons₂ ph (by simp)
      · rw [if_neg hb]
        exact List.Sublist.cons₂ ph (ih _ _)
  have hAt : ∀ (p : ℕ) (rest : List ℕ),
      ((processPrimesAt env p rest).filterMap phaseOf).Sublist
        [Phase.cached, .uncached, .cocached, .nearprime, .prime, .bigprime] := by
    intro p rest
    unfold processPrimesAt
    by_cases h0 : env.pmax < p
    · rw [if_pos h0]; simp
    · rw [if_neg h0]
      simp only []
      have hs1 : ∀ (s1 : List Ev × ℕ × List ℕ), s1.1.filterMap phaseOf = [] →
          (((s1.1 ++ Ev.phase .cached ::
            (if env.rpPhase .cached = false then [] else
             if env.pmax < s1.2.1 then [] else
             runPhases env (laterPhases env) s1.2.1 s1.2.2)).filterMap
              phaseOf).Sublist
            [Phase.cached, .uncached, .cocached, .nearprime, .prime, .bigprime]) := by
        intro s1 hnil
        simp only [List.filterMap_append, hnil, List.nil_append,
          List.filterMap_cons, phaseOf]
        by_cases hr : env.rpPhase .cached = false
        · rw [if_pos hr]
          exact List.Sublist.cons₂ _ (by simp)
        · rw [if_neg hr]
          by_cases hb : env.pmax < s1.2.1
          · rw [if_pos hb]
            exact List.Sublist.cons₂ _ (by simp)
          · rw [if_neg hb]
            exact List.Sublist.cons₂ _ (hrun (laterPhases env) s1.2.1 s1.2.2)
      apply hs1
      by_cases hc : p ≤ env.cpmax
      · rw [if_pos hc]; exact hseg1 _ p rest
      · rw [if_neg hc]; rfl
  have hfull : List.Sorted (· < ·)
      (List.map phaseId
        [Phase.cached, .uncached, .cocached, .nearprime, .prime, .bigprime]) := by
    decide
  have hsub : ((processPrimes env stream).filterMap phaseOf).Sublist
      [Phase.cached, .uncached, .cocached, .nearprime, .prime, .bigprime] := by
    rcases stream with _ | ⟨x, xs⟩
    · exact hAt pipeEnd []
    · exact hAt x xs
  exact hfull.sublist (hsub.map phaseId)

/-- Counterexample to claim C5 as stated: with thresholds cpmax=10, cdmin=20,
sdmin=30, pdmin=40, bpmin=50, pmax=100, a reporter whose report_phase returns
false exactly at PHASE_UNCACHED, and the single stream prime 23, the routine
still performs the phase-3 work for p = 23 after the PHASE_UNCACHED boundary
returned false: only the PHASE_CACHED boundary's result is checked (zcubes.c
line 420); the results of the later boundaries (lines 436, 447, 467, 478, 518)
are ignored, so the trace does not short-circuit. -/
theorem c5_counterexample :
    (PEnv.mk 10 20 30 40 50 100 (fun ph => !(ph == Phase.uncached))
        (fun _ => true) (fun _ => 1) (fun _ => true) (fun _ => true)).rpPhase
      Phase.uncached = false ∧
    processPrimes
        (PEnv.mk 10 20 30 40 50 100 (fun ph => !(ph == Phase.uncached))
          (fun _ => true) (fun _ => 1) (fun _ => true) (fun _ => true)) [23] =
      [Ev.phase .cached, Ev.phase .uncached, Ev.work .cocached 23,
        Ev.phase .cocached] ∧
    ¬ shortCircuits
        (PEnv.mk 10 20 30 40 50 100 (fun ph => !(ph == Phase.uncached))
          (fun _ => true) (fun _ => 1) (fun _ => true) (fun _ => true)).rpPhase
        (processPrimes
          (PEnv.mk 10 20 30 40 50 100 (fun ph => !(ph == Phase.uncached))
            (fun _ => true) (fun _ => 1) (fun _ => true) (fun _ => true)) [23]) := by
  refine ⟨rfl, by decide, by decide⟩

/-- Claim C5 amended: every phase boundary reached calls report_phase, but only
the PHASE_CACHED boundary's false return short-circuits to done (zcubes.c line
420); the return values of the other five boundaries are ignored.  When
report_phase(PHASE_CACHED) = false, every event of the trace belongs to the
cached phase: no per-prime work of any later phase is performed. -/
theorem c5_cached_false_short_circuits (env : PEnv) (stream : List ℕ)
    (h : env.rpPhase .cached = false) :
    (processPrimes env stream).all cachedOnly = true := by
  have hAt : ∀ (p : ℕ) (rest : List ℕ) (ev : Ev), ev ∈ processPrimesAt env p rest →
      cachedOnly ev = true := by
    intro p rest ev hev
    simp only [processPrimesAt] at hev
    by_cases h0 : env.pmax < p
    · rw [if_pos h0] at hev; simp at hev
    · rw [if_neg h0, if_pos h] at hev
      rcases List.mem_append.mp hev with h1 | h1
      · by_cases hc : p ≤ env.cpmax
        · rw [if_pos hc] at h1
          have h2 := phaseLoop_mem (P := fun ev => cachedOnly ev = true) _
            (body1 env) (fun p2 ev2 h2 => by rw [body1_mem env p2 ev2 h2]; rfl)
            rest p ev h1
          exact h2
        · rw [if_neg hc] at h1
          simp at h1
      · rw [List.mem_singleton.mp h1]; rfl
  rw [List.all_eq_true]
  rcases stream with _ | ⟨x, xs⟩
  · exact fun ev hev => hAt pipeEnd [] ev hev
  · exact fun ev hev => hAt x xs ev hev

/-- Witness for the amended C5 at a concrete input: report_phase(PHASE_CACHED)
returns false, so the trace for the stream [5] holds only cached-phase
events. -/
theorem c5_cached_false_short_circuits_witness :
    (processPrimes
        (PEnv.mk 10 20 30 40 50 100 (fun _ => false) (fun _ => true)
          (fun _ => 1) (fun _ => true) (fun _ => true)) [5]).all cachedOnly = true :=
  c5_cached_false_short_circuits _ [5] rfl

/-- Membership in the canonical cube-root list. -/
theorem mem_cubeRootsMod {m k z : ℕ} :
    z ∈ cubeRootsMod m k ↔ z < m ∧ z ^ 3 % m = k % m := by
  unfold cubeRootsMod
  simp [List.mem_filter, List.mem_range]

/-- The canonical cube-root list has no duplicates. -/
theorem cubeRootsMod_nodup (m k : ℕ) : (cubeRootsMod m k).Nodup :=
  (List.nodup_range m).filter _

/-- A duplicate-free list with the same members as another duplicate-free list
has the same length. -/
theorem length_eq_of_nodup_of_mem_iff {l1 l2 : List ℕ} (h1 : l1.Nodup)
    (h2 : l2.Nodup) (hm : ∀ x, x ∈ l1 ↔ x ∈ l2) : l1.length = l2.length := by
  rw [← List.toFinset_card_of_nodup h1, ← List.toFinset_card_of_nodup h2]
  congr 1
  ext x
  simp [hm]

/-- The congruences of the modelled fcrt64 at the enumd call site: with ainv an
inverse of a mod d, u = a*ainv - 1 and w < a, the combined value is congruent
to z mod d and to w mod a. -/
theorem fcrt64_modEq (a d ainv u : ℕ) (hinv : a * ainv % d = 1)
    (hu : u = a * ainv - 1) (w z : ℕ) (hw : w < a) :
    fcrt64 u (a - w) z (a * d) ≡ z [MOD d] ∧
      fcrt64 u (a - w) z (a * d) ≡ w [MOD a] := by
  have h1 : 1 ≤ a * ainv := by
    rcases Nat.eq_zero_or_pos (a * ainv) with h | h
    · rw [h] at hinv; simp at hinv
    · exact h
  have hdm := Nat.div_add_mod (a * ainv) d
  rw [hinv] at hdm
  have hdu : d ∣ u := ⟨a * ainv / d, by omega⟩
  constructor
  · have hm1 : fcrt64 u (a - w) z (a * d) ≡ z + u * (z + (a - w)) [MOD d] :=
      (Nat.mod_modEq _ (a * d)).of_dvd (dvd_mul_left d a)
    have hm2 : z + u * (z + (a - w)) ≡ z + 0 [MOD d] :=
      Nat.ModEq.add_left z ((Nat.modEq_zero_iff_dvd).mpr (hdu.mul_right _))
    exact hm1.trans (by simpa using hm2)
  · have hm1 : fcrt64 u (a - w) z (a * d) ≡ z + u * (z + (a - w)) [MOD a] :=
      (Nat.mod_modEq _ (a * d)).of_dvd (dvd_mul_right a d)
    have hm2 : z + u * (z + (a - w)) ≡ w [MOD a] := by
      rw [Nat.modEq_iff_dvd]
      refine ⟨1 - (ainv : ℤ) * ((z : ℤ) + (a : ℤ) - (w : ℤ)), ?_⟩
      push_cast [hu, Nat.cast_sub h1, Nat.cast_sub hw.le]
      ring
    exact hm1.trans hm2

/-- The CRT buffer holds one entry per (root mod a, root mod d) pair. -/
theorem crtCombine_length (a d u : ℕ) (qzs zds : List ℕ) :
    (crtCombine a d u qzs zds).length = qzs.length * zds.length := by
  unfold crtCombine
  induction qzs with
  | nil => simp
  | cons w ws ih => simp [ih, Nat.succ_mul, Nat.add_comm]

/-- Characterisation of the CRT buffer: assuming the input lists enumerate the
cube roots of k mod a and mod d, the combined entries are exactly the cube
roots of k mod a*d. -/
theorem crtCombine_mem (a d k ainv u : ℕ) (qzs zds : List ℕ)
    (hco : Nat.Coprime a d) (ha : 0 < a) (hd : 0 < d)
    (hinv : a * ainv % d = 1) (hu : u = a * ainv - 1)
    (hqmem : ∀ w, w ∈ qzs ↔ (w < a ∧ w ^ 3 % a = k % a))
    (hzmem : ∀ z, z ∈ zds ↔ (z < d ∧ z ^ 3 % d = k % d)) :
    ∀ r, r ∈ crtCombine a d u qzs zds ↔
      (r < a * d ∧ r ^ 3 % (a * d) = k % (a * d)) := by
  intro r
  have had : 0 < a * d := Nat.mul_pos ha hd
  constructor
  · intro hr
    unfold crtCombine at hr
    rw [List.mem_flatMap] at hr
    obtain ⟨w, hwm, hr⟩ := hr
    rw [List.mem_map] at hr
    obtain ⟨z, hzm, rfl⟩ := hr
    obtain ⟨hwa, hwc⟩ := (hqmem w).mp hwm
    obtain ⟨hzd, hzc⟩ := (hzmem z).mp hzm
    obtain ⟨hmd, hma⟩ := fcrt64_modEq a d ainv u hinv hu w z hwa
    refine ⟨Nat.mod_lt _ had, ?_⟩
    have hcd : (fcrt64 u (a - w) z (a * d)) ^ 3 ≡ k [MOD d] :=
      (hmd.pow 3).trans hzc
    have hca : (fcrt64 u (a - w) z (a * d)) ^ 3 ≡ k [MOD a] :=
      (hma.pow 3).trans hwc
    exact (Nat.modEq_and_modEq_iff_modEq_mul hco).mp ⟨hca, hcd⟩
  · rintro ⟨hrlt, hrc⟩
    have hwm : r % a ∈ qzs := by
      refine (hqmem (r % a)).mpr ⟨Nat.mod_lt _ ha, ?_⟩
      have h3 : (r % a) ^ 3 ≡ r ^ 3 [MOD a] := (Nat.mod_modEq r a).pow 3
      have hk : r ^ 3 ≡ k [MOD a] :=
        Nat.ModEq.of_dvd (dvd_mul_right a d) hrc
      exact h3.trans hk
    have hzm : r % d ∈ zds := by
      refine (hzmem (r % d)).mpr ⟨Nat.mod_lt _ hd, ?_⟩
      have h3 : (r % d) ^ 3 ≡ r ^ 3 [MOD d] := (Nat.mod_modEq r d).pow 3
      have hk : r ^ 3 ≡ k [MOD d] :=
        Nat.ModEq.of_dvd (dvd_mul_left d a) hrc
      exact h3.trans hk
    obtain ⟨hmd, hma⟩ :=
      fcrt64_modEq a d ainv u hinv hu (r % a) (r % d) (Nat.mod_lt _ ha)
    have heq : fcrt64 u (a - r % a) (r % d) (a * d) = r := by
      have h1 : fcrt64 u (a - r % a) (r % d) (a * d) ≡ r [MOD d] :=
        hmd.trans (Nat.mod_modEq r d)
      have h2 : fcrt64 u (a - r % a) (r % d) (a * d) ≡ r [MOD a] :=
        hma.trans (Nat.mod_modEq r a)
      have h12 : fcrt64 u (a - r % a) (r % d) (a * d) ≡ r [MOD a * d] :=
        (Nat.modEq_and_modEq_iff_modEq_mul hco).mp ⟨h2, h1⟩
      have h13 : fcrt64 u (a - r % a) (r % d) (a * d) % (a * d) = r % (a * d) := h12
      have hlt : fcrt64 u (a - r % a) (r % d) (a * d) < a * d := by
        unfold fcrt64; exact Nat.mod_lt _ had
      rwa [Nat.mod_eq_of_lt hlt, Nat.mod_eq_of_lt hrlt] at h13
    unfold crtCombine
    rw [List.mem_flatMap]
    exact ⟨r % a, hwm, List.mem_map.mpr ⟨r % d, hzm, heq⟩⟩

/-- The CRT buffer has no duplicate roots when the input lists have none. -/
theorem crtCombine_nodup (a d k ainv u : ℕ) (qzs zds : List ℕ)
    (hinv : a * ainv % d = 1) (hu : u = a * ainv - 1)
    (hqnd : qzs.Nodup) (hznd : zds.Nodup)
    (hqmem : ∀ w, w ∈ qzs ↔ (w < a ∧ w ^ 3 % a = k % a))
    (hzmem : ∀ z, z ∈ zds ↔ (z < d ∧ z ^ 3 % d = k % d)) :
    (crtCombine a d u qzs zds).Nodup := by
  unfold crtCombine
  rw [List.nodup_flatMap]
  constructor
  · intro w hw
    refine List.Nodup.map_on ?_ hznd
    intro z1 h1 z2 h2 heq
    have hwa := ((hqmem w).mp hw).1
    have c1 := (fcrt64_modEq a d ainv u hinv hu w z1 hwa).1
    have c2 := (fcrt64_modEq a d ainv u hinv hu w z2 hwa).1
    have hc : z1 ≡ z2 [MOD d] := c1.symm.trans (heq ▸ c2)
    have hc2 : z1 % d = z2 % d := hc
    rwa [Nat.mod_eq_of_lt ((hzmem z1).mp h1).1,
      Nat.mod_eq_of_lt ((hzmem z2).mp h2).1] at hc2
  · refine List.Pairwise.imp_of_mem ?_ hqnd
    intro w1 w2 hw1 hw2 hne r hr1 hr2
    rw [List.mem_map] at hr1 hr2
    obtain ⟨z1, _, he1⟩ := hr1
    obtain ⟨z2, _, he2⟩ := hr2
    have hwa1 := ((hqmem w1).mp hw1).1
    have hwa2 := ((hqmem w2).mp hw2).1
    have c1 := (fcrt64_modEq a d ainv u hinv hu w1 z1 hwa1).2
    have c2 := (fcrt64_modEq a d ainv u hinv hu w2 z2 hwa2).2
    rw [he1] at c1
    rw [he2] at c2
    have hc : w1 ≡ w2 [MOD a] := c1.symm.trans c2
    have hc2 : w1 % a = w2 % a := hc
    rw [Nat.mod_eq_of_lt hwa1, Nat.mod_eq_of_lt hwa2] at hc2
    exact hne hc2

/-- Claim C3: for every (d, zd, n) the enumerator offers to the dispatcher -
here the CRT combination step of enumd (zcubes.c lines 262-267) that builds
the buffer for the new modulus a*d out of the cube roots zd of k mod d and the
cube roots of k mod the new prime power a, with u = a*(a^-1 mod d)-1 as
computed at line 263: every buffer entry is < a*d and cubes to k mod a*d, the
buffer length equals the total number of cube roots of k mod a*d, and - given
the table bounds on the inputs - that number is at most 3^omega(a*d). -/
theorem c3_crt_roots (a d k ainv u : ℕ) (qzs zds : List ℕ)
    (hco : Nat.Coprime a d) (ha : 0 < a) (hd : 0 < d)
    (hinv : a * ainv % d = 1) (hu : u = a * ainv - 1)
    (hqnd : qzs.Nodup) (hznd : zds.Nodup)
    (hqmem : ∀ w, w ∈ qzs ↔ (w < a ∧ w ^ 3 % a = k % a))
    (hzmem : ∀ z, z ∈ zds ↔ (z < d ∧ z ^ 3 % d = k % d))
    (hqb : qzs.length ≤ 3 ^ a.primeFactors.card)
    (hzb : zds.length ≤ 3 ^ d.primeFactors.card) :
    (∀ r ∈ crtCombine a d u qzs zds,
        r < a * d ∧ r ^ 3 % (a * d) = k % (a * d)) ∧
    (crtCombine a d u qzs zds).length = nCubeRoots (a * d) k ∧
    nCubeRoots (a * d) k ≤ 3 ^ (a * d).primeFactors.card := by
  have hmem := crtCombine_mem a d k ainv u qzs zds hco ha hd hinv hu hqmem hzmem
  have hlen : (crtCombine a d u qzs zds).length = nCubeRoots (a * d) k := by
    refine length_eq_of_nodup_of_mem_iff
      (crtCombine_nodup a d k ainv u qzs zds hinv hu hqnd hznd hqmem hzmem)
      (cubeRootsMod_nodup (a * d) k) (fun r => ?_)
    rw [hmem r, mem_cubeRootsMod]
  refine ⟨fun r hr => (hmem r).mp hr, hlen, ?_⟩
  have homega : (a * d).primeFactors.card =
      a.primeFactors.card + d.primeFactors.card := by
    rw [Nat.primeFactors_mul (Nat.pos_iff_ne_zero.mp ha) (Nat.pos_iff_ne_zero.mp hd),
      Finset.card_union_of_disjoint (Nat.Coprime.disjoint_primeFactors hco)]
  calc nCubeRoots (a * d) k = qzs.length * zds.length := by
        rw [← hlen, crtCombine_length]
    _ ≤ 3 ^ a.primeFactors.card * 3 ^ d.primeFactors.card :=
        Nat.mul_le_mul hqb hzb
    _ = 3 ^ (a.primeFactors.card + d.primeFactors.card) := (pow_add 3 _ _).symm
    _ = 3 ^ (a * d).primeFactors.card := by rw [homega]

/-- Witness for C3 at a concrete input: k = 3, d = 2 with root list [1], new
prime power a = 5 with root list [2], a^-1 = 1 mod 2, u = 4: the combined
buffer has exactly nCubeRoots(10, 3) = 1 entry. -/
theorem c3_crt_roots_witness :
    (crtCombine 5 2 4 [2] [1]).length = nCubeRoots 10 3 :=
  ((c3_crt_roots 5 2 3 1 4 [2] [1] (by decide) (by decide) (by decide)
      (by decide) (by decide) (by decide) (by decide)
      (fun w => by
        rw [(by decide : ([2] : List ℕ) = cubeRootsMod 5 3)]
        exact mem_cubeRootsMod)
      (fun z => by
        rw [(by decide : ([1] : List ℕ) = cubeRootsMod 2 3)]
        exact mem_cubeRootsMod)
      (by rw [Nat.Prime.primeFactors (by norm_num)]; simp)
      (by rw [Nat.Prime.primeFactors (by norm_num)]; simp)).2).1

/-- A prime divisor of a nonzero number is within the SmoothOver bound. -/
theorem smoothOver_def {ps : List ℕ} {c : ℕ} (h : SmoothOver ps c) :
    ∀ r, Nat.Prime r → r ∣ c → c ≠ 0 → r ∈ ps := by
  intro r hrp hrd hc0
  exact h r (Nat.lt_succ_of_le (Nat.le_of_dvd (Nat.pos_of_ne_zero hc0) hrd)) hrp hrd

/-- To be smooth it is enough that every prime divisor is listed. -/
theorem smoothOver_of {ps : List ℕ} {c : ℕ}
    (h : ∀ r, Nat.Prime r → r ∣ c → r ∈ ps) : SmoothOver ps c :=
  fun r _ hrp hrd => h r hrp hrd

/-- Unpacking the decreasing-primes hypothesis at a cons. -/
theorem decPrimes_cons {q : ℕ} {qs : List ℕ} (h : DecPrimes (q :: qs)) :
    DecPrimes qs ∧ Nat.Prime q ∧ ∀ r ∈ qs, r < q := by
  obtain ⟨hch, hpr⟩ := h
  have hpw := List.chain'_iff_pairwise.mp hch
  rw [List.pairwise_cons] at hpw
  refine ⟨⟨hch.tail, fun r hr => hpr r (List.mem_cons_of_mem q hr)⟩,
    hpr q (List.mem_cons_self q qs), fun r hr => hpw.1 r hr⟩

/-- enumd over an empty prime list can emit nothing. -/
theorem condD_nil (dmax d v : ℕ) : ¬ CondD dmax ([] : List ℕ) d v := by
  rintro ⟨hdv, h2, hle, hsm⟩
  obtain ⟨r, hrp, hrd⟩ := Nat.exists_prime_and_dvd (by omega : v / d ≠ 1)
  exact absurd (smoothOver_def hsm r hrp hrd (by omega)) (List.not_mem_nil r)

/-- A value of the q-power branch is a value of enumd at q :: qs. -/
theorem condQ_imp_condD_cons {dmax q : ℕ} {qs : List ℕ} {d v : ℕ}
    (hq : Nat.Prime q) (h : CondQ dmax q qs d v) : CondD dmax (q :: qs) d v := by
  obtain ⟨hdv, hv0, hle, hqd, hsm⟩ := h
  refine ⟨hdv, ?_, hle, hsm⟩
  have hc0 : v / d ≠ 0 := by
    intro h0
    have hvv := Nat.mul_div_cancel' hdv
    rw [h0, mul_zero] at hvv
    exact hv0 hvv.symm
  have h1 := Nat.le_of_dvd (Nat.pos_of_ne_zero hc0) hqd
  have h2 := hq.two_le
  omega

/-- A value of enumd at qs is a value of enumd at q :: qs. -/
theorem condD_tail_imp_cons {dmax q : ℕ} {qs : List ℕ} {d v : ℕ}
    (h : CondD dmax qs d v) : CondD dmax (q :: qs) d v := by
  obtain ⟨hdv, h2, hle, hsm⟩ := h
  exact ⟨hdv, h2, hle,
    fun r hrlt hrp hrd => List.mem_cons_of_mem q (hsm r hrlt hrp hrd)⟩

/-- A value of enumd at q :: qs comes from the q-power branch or from the
tail. -/
theorem condD_cons_imp {dmax q : ℕ} {qs : List ℕ} {d v : ℕ}
    (h : CondD dmax (q :: qs) d v) : CondQ dmax q qs d v ∨ CondD dmax qs d v := by
  obtain ⟨hdv, h2, hle, hsm⟩ := h
  by_cases hqd : q ∣ v / d
  · left
    refine ⟨hdv, ?_, hle, hqd, hsm⟩
    intro h0
    rw [h0, Nat.zero_div] at h2
    omega
  · right
    refine ⟨hdv, h2, hle, fun r hrlt hrp hrd => ?_⟩
    rcases List.mem_cons.mp (hsm r hrlt hrp hrd) with h | h
    · exact absurd (h ▸ hrd) hqd
    · exact h

/-- The q-power branch and the tail of enumd emit disjoint values. -/
theorem condQ_condD_disjoint {dmax q : ℕ} {qs : List ℕ} {d v : ℕ}
    (hq : Nat.Prime q) (hqs : ∀ r ∈ qs, r < q)
    (h1 : CondQ dmax q qs d v) (h2 : CondD dmax qs d v) : False := by
  obtain ⟨hdv, hv0, hle, hqd, _⟩ := h1
  obtain ⟨_, hc2, _, hsm⟩ := h2
  have hmem := smoothOver_def hsm q hq hqd (by omega)
  exact absurd (hqs q hmem) (lt_irrefl q)

/-- Counting form of the enumd cons split. -/
theorem condD_cons_count (dmax q : ℕ) (qs : List ℕ) (d v : ℕ)
    (hq : Nat.Prime q) (hqs : ∀ r ∈ qs, r < q) :
    (if CondD dmax (q :: qs) d v then 1 else 0) =
      ((if CondQ dmax q qs d v then 1 else 0) +
        (if CondD dmax qs d v then 1 else 0) : ℕ) := by
  by_cases h1 : CondQ dmax q qs d v
  · rw [if_pos h1, if_pos (condQ_imp_condD_cons hq h1),
      if_neg (fun h2 => condQ_condD_disjoint hq hqs h1 h2)]
  · rw [if_neg h1]
    by_cases h2 : CondD dmax qs d v
    · rw [if_pos h2, if_pos (condD_tail_imp_cons h2)]
    · rw [if_neg h2, if_neg (fun h => (condD_cons_imp h).elim h1 h2)]

/-- When already d*q exceeds dmax the q-power branch emits nothing. -/
theorem condQ_not_of_big {dmax q : ℕ} {qs : List ℕ} {d v : ℕ}
    (hbig : dmax < d * q) : ¬ CondQ dmax q qs d v := by
  rintro ⟨hdv, hv0, hle, hqd, _⟩
  have hc0 : v / d ≠ 0 := by
    intro h0
    have hvv := Nat.mul_div_cancel' hdv
    rw [h0, mul_zero] at hvv
    exact hv0 hvv.symm
  have hqc : q ≤ v / d := Nat.le_of_dvd (Nat.pos_of_ne_zero hc0) hqd
  have hm : d * q ≤ d * (v / d) := Nat.mul_le_mul_left d hqc
  rw [Nat.mul_div_cancel' hdv] at hm
  omega

/-- The head emission d*q of the q-power branch satisfies CondQ. -/
theorem condQ_of_head {dmax q : ℕ} {qs : List ℕ} {d v : ℕ}
    (hq : Nat.Prime q) (hd : 1 ≤ d) (hdq : d * q ≤ dmax) (hv : v = d * q) :
    CondQ dmax q qs d v := by
  subst hv
  have hdpos : 0 < d := hd
  have hq1 : (d * q) / d = q := Nat.mul_div_cancel_left q hdpos
  refine ⟨dvd_mul_right d q, ?_, hdq, ?_, ?_⟩
  · have := hq.two_le
    positivity
  · rw [hq1]
  · rw [hq1]
    refine smoothOver_of (fun r hrp hrd => ?_)
    exact List.mem_cons.mpr (Or.inl ((Nat.prime_dvd_prime_iff_eq hrp hq).mp hrd))

/-- The cofactor quotient identity: if d*q divides v then v/d = q * (v/(d*q)). -/
theorem div_split {q d v : ℕ} (hd : 0 < d) (hdqv : d * q ∣ v) :
    v / d = q * (v / (d * q)) := by
  obtain ⟨c, rfl⟩ := hdqv
  have hq0 : 0 < q ∨ q = 0 := by omega
  rcases hq0 with hq0 | hq0
  · rw [Nat.mul_div_cancel_left c (Nat.mul_pos hd hq0), mul_assoc,
      Nat.mul_div_cancel_left _ hd]
  · subst hq0; simp

/-- A recursive enumd value under the extended modulus d*q satisfies CondQ. -/
theorem condQ_of_condD_ext {dmax q : ℕ} {qs : List ℕ} {d v : ℕ}
    (hq : Nat.Prime q) (hd : 1 ≤ d)
    (h : CondD dmax qs (d * q) v) : CondQ dmax q qs d v := by
  obtain ⟨hdqv, h2, hle, hsm⟩ := h
  have hdpos : 0 < d := hd
  have hw := div_split hdpos hdqv
  refine ⟨(dvd_mul_right d q).trans hdqv, ?_, hle, ?_, ?_⟩
  · intro h0
    rw [h0, Nat.zero_div] at h2
    omega
  · rw [hw]; exact dvd_mul_right q _
  · rw [hw]
    refine smoothOver_of (fun r hrp hrd => ?_)
    rcases (Nat.Prime.dvd_mul hrp).mp hrd with h | h
    · exact List.mem_cons.mpr
        (Or.inl ((Nat.prime_dvd_prime_iff_eq hrp hq).mp h))
    · exact List.mem_cons_of_mem q (smoothOver_def hsm r hrp h (by omega))

/-- A deeper q-power value under the extended modulus d*q satisfies CondQ at
d. -/
theorem condQ_of_condQ_ext {dmax q : ℕ} {qs : List ℕ} {d v : ℕ}
    (hq : Nat.Prime q) (hd : 1 ≤ d) (h : CondQ dmax q qs (d * q) v) :
    CondQ dmax q qs d v := by
  obtain ⟨hdqv, hv0, hle, hqd2, hsm⟩ := h
  have hdpos : 0 < d := hd
  have hw := div_split hdpos hdqv
  have hw2ne : v / (d * q) ≠ 0 := by
    intro h0
    have hvv := Nat.mul_div_cancel' hdqv
    rw [h0, mul_zero] at hvv
    exact hv0 hvv.symm
  refine ⟨(dvd_mul_right d q).trans hdqv, hv0, hle, ?_, ?_⟩
  · rw [hw]; exact dvd_mul_right q _
  · rw [hw]
    refine smoothOver_of (fun r hrp hrd => ?_)
    rcases (Nat.Prime.dvd_mul hrp).mp hrd with h | h
    · exact List.mem_cons.mpr
        (Or.inl ((Nat.prime_dvd_prime_iff_eq hrp hq).mp h))
    · exact smoothOver_def hsm r hrp h hw2ne

/-- Every q-power value either is the head d*q, or extends d*q through the
smaller primes, or carries a deeper power of q. -/
theorem condQ_split {dmax q : ℕ} {qs : List ℕ} {d v : ℕ}
    (hd : 1 ≤ d) (h : CondQ dmax q qs d v) :
    v = d * q ∨ CondD dmax qs (d * q) v ∨ CondQ dmax q qs (d * q) v := by
  obtain ⟨hdv, hv0, hle, hqd, hsm⟩ := h
  have hdpos : 0 < d := hd
  have hdqv : d * q ∣ v := by
    obtain ⟨c, rfl⟩ := hdv
    rw [Nat.mul_div_cancel_left c hdpos] at hqd
    exact mul_dvd_mul_left d hqd
  have hvw : v = d * q * (v / (d * q)) := (Nat.mul_div_cancel' hdqv).symm
  have hw2ne : v / (d * q) ≠ 0 := by
    intro h0
    rw [h0, mul_zero] at hvw
    exact hv0 hvw
  have hwrel := div_split hdpos hdqv
  have hwne : v / d ≠ 0 := by
    intro h0
    have hvv := Nat.mul_div_cancel' hdv
    rw [h0, mul_zero] at hvv
    exact hv0 hvv.symm
  rcases Nat.lt_or_ge (v / (d * q)) 2 with hlt | hge
  · left
    have h1 : v / (d * q) = 1 :=
      Nat.le_antisymm (Nat.lt_succ_iff.mp hlt) (Nat.pos_of_ne_zero hw2ne)
    rw [h1, mul_one] at hvw
    exact hvw
  · by_cases hq2 : q ∣ v / (d * q)
    · right; right
      refine ⟨hdqv, hv0, hle, hq2, ?_⟩
      refine smoothOver_of (fun r hrp hrd => ?_)
      refine smoothOver_def hsm r hrp ?_ hwne
      exact hrd.trans (by rw [hwrel]; exact dvd_mul_left _ q)
    · right; left
      refine ⟨hdqv, hge, hle, ?_⟩
      refine smoothOver_of (fun r hrp hrd => ?_)
      have hmem := smoothOver_def hsm r hrp
        (hrd.trans (by rw [hwrel]; exact dvd_mul_left _ q)) hwne
      rcases List.mem_cons.mp hmem with h | h
      · exact absurd (h ▸ hrd) hq2
      · exact h

/-- The head d*q is not a recursive enumd value. -/
theorem condQ_head_ne_condD {dmax q : ℕ} {qs : List ℕ} {d v : ℕ}
    (hd : 1 ≤ d) (hq : 1 ≤ q) (hv : v = d * q)
    (h : CondD dmax qs (d * q) v) : False := by
  obtain ⟨_, h2, _, _⟩ := h
  rw [hv, Nat.div_self (by positivity)] at h2
  omega

/-- The head d*q is not a deeper q-power value. -/
theorem condQ_head_ne_condQ {dmax q : ℕ} {qs : List ℕ} {d v : ℕ}
    (hd : 1 ≤ d) (hq : 2 ≤ q) (hv : v = d * q)
    (h : CondQ dmax q qs (d * q) v) : False := by
  obtain ⟨_, _, _, hqd, _⟩ := h
  rw [hv, Nat.div_self (by positivity)] at hqd
  have := Nat.le_of_dvd one_pos hqd
  omega

/-- The tail extension and the deeper q-power at modulus d*q are disjoint. -/
theorem condD_ext_ne_condQ_ext {dmax q : ℕ} {qs : List ℕ} {d v : ℕ}
    (hq : Nat.Prime q) (hqs : ∀ r ∈ qs, r < q)
    (h1 : CondD dmax qs (d * q) v) (h2 : CondQ dmax q qs (d * q) v) : False := by
  obtain ⟨_, hc2, _, hsm⟩ := h1
  obtain ⟨_, _, _, hqd, _⟩ := h2
  have hmem := smoothOver_def hsm q hq hqd (by omega)
  exact absurd (hqs q hmem) (lt_irrefl q)

/-- Counting form of the q-power branch unfolding. -/
theorem condQ_step_count (dmax q : ℕ) (qs : List ℕ) (d v : ℕ)
    (hq : Nat.Prime q) (hqs : ∀ r ∈ qs, r < q) (hd : 1 ≤ d)
    (hdq : d * q ≤ dmax) :
    (if CondQ dmax q qs d v then 1 else 0) =
      ((if v = d * q then 1 else 0) +
        ((if CondD dmax qs (d * q) v then 1 else 0) +
          (if CondQ dmax q qs (d * q) v then 1 else 0)) : ℕ) := by
  by_cases h1 : v = d * q
  · rw [if_pos h1, if_pos (condQ_of_head hq hd hdq h1),
      if_neg (fun h => condQ_head_ne_condD hd hq.pos h1 h),
      if_neg (fun h => condQ_head_ne_condQ hd hq.two_le h1 h)]
  · rw [if_neg h1]
    by_cases h2 : CondD dmax qs (d * q) v
    · rw [if_pos h2, if_pos (condQ_of_condD_ext hq hd h2),
        if_neg (fun h => condD_ext_ne_condQ_ext hq hqs h2 h)]
    · rw [if_neg h2]
      by_cases h3 : CondQ dmax q qs (d * q) v
      · rw [if_pos h3, if_pos (condQ_of_condQ_ext hq hd h3)]
      · rw [if_neg h3,
          if_neg (fun h => (condQ_split hd h).elim h1 (fun h => h.elim h2 h3))]

/-- The central counting invariant of the d-enumerator: with enough fuel, over
a strictly decreasing list of table primes, enumd emits every admissible
extension of d exactly once (and nothing else), and likewise for the q-power
branch enumdPow. -/
theorem enum_count (dmax : ℕ) : ∀ fuel : ℕ,
    (∀ (ps : List ℕ) (d : ℕ), DecPrimes ps → 1 ≤ d →
      2 * ps.length + 2 * (dmax + 1 - d) + 1 ≤ fuel →
      ∀ v, (enumd dmax fuel ps d).count v =
        if CondD dmax ps d v then 1 else 0) ∧
    (∀ (q : ℕ) (qs : List ℕ) (d : ℕ), DecPrimes (q :: qs) → 1 ≤ d →
      2 * (qs.length + 1) + 2 * (dmax + 1 - d) ≤ fuel →
      ∀ v, (enumdPow dmax fuel q qs d).count v =
        if CondQ dmax q qs d v then 1 else 0) := by
  intro fuel
  induction fuel with
  | zero =>
    constructor
    · intro ps d _ _ hf; omega
    · intro q qs d _ _ hf; omega
  | succ fuel ih =>
    obtain ⟨ihd, ihq⟩ := ih
    constructor
    · intro ps d hdec hd hf v
      cases ps with
      | nil =>
        rw [show enumd dmax (fuel + 1) [] d = [] from rfl, List.count_nil,
          if_neg (condD_nil dmax d v)]
      | cons q qs =>
        obtain ⟨hdecqs, hq, hqs⟩ := decPrimes_cons hdec
        simp only [List.length_cons] at hf
        rw [show enumd dmax (fuel + 1) (q :: qs) d =
            enumdPow dmax fuel q qs d ++ enumd dmax fuel qs d from rfl,
          List.count_append,
          ihq q qs d hdec hd (by omega),
          ihd qs d hdecqs hd (by omega)]
        exact (condD_cons_count dmax q qs d v hq hqs).symm
    · intro q qs d hdec hd hf v
      obtain ⟨hdecqs, hq, hqs⟩ := decPrimes_cons hdec
      have h2q := hq.two_le
      by_cases hguard : d * q ≤ dmax
      · have hstep : d + 1 ≤ d * q := by
          have hm : d * 2 ≤ d * q := Nat.mul_le_mul_left d h2q
          omega
        have hdq1 : 1 ≤ d * q := by omega
        rw [show enumdPow dmax (fuel + 1) q qs d =
            (if d * q ≤ dmax then
              d * q :: (enumd dmax fuel qs (d * q) ++
                enumdPow dmax fuel q qs (d * q))
            else []) from rfl,
          if_pos hguard, List.count_cons, List.count_append,
          ihd qs (d * q) hdecqs hdq1 (by omega),
          ihq q qs (d * q) hdec hdq1 (by omega),
          condQ_step_count dmax q qs d v hq hqs hd hguard]
        simp only [beq_iff_eq]
        have hcomm : (if d * q = v then (1 : ℕ) else 0) =
            if v = d * q then 1 else 0 := by
          by_cases h : d * q = v
          · rw [if_pos h, if_pos h.symm]
          · rw [if_neg h, if_neg (fun hh => h hh.symm)]
        rw [hcomm]
        omega
      · rw [show enumdPow dmax (fuel + 1) q qs d =
            (if d * q ≤ dmax then
              d * q :: (enumd dmax fuel qs (d * q) ++
                enumdPow dmax fuel q qs (d * q))
            else []) from rfl,
          if_neg hguard, List.count_nil,
          if_neg (condQ_not_of_big (by omega))]

/-- When pp itself exceeds dmax the power loop emits nothing. -/
theorem condPow_not_of_big {dmax p : ℕ} {ps : List ℕ} {pp v : ℕ}
    (hbig : dmax < pp) : ¬ CondPow dmax p ps pp v := by
  rintro ⟨hppv, hv0, hle, _⟩
  have := Nat.le_of_dvd (Nat.pos_of_ne_zero hv0) hppv
  omega

/-- The bare power pp satisfies CondPow. -/
theorem condPow_of_head {dmax p : ℕ} {ps : List ℕ} {pp v : ℕ}
    (hpp : 1 ≤ pp) (hle : pp ≤ dmax) (hv : v = pp) :
    CondPow dmax p ps pp v := by
  subst hv
  refine ⟨dvd_rfl, by omega, hle, ?_⟩
  rw [Nat.div_self (by omega : 0 < v)]
  refine smoothOver_of (fun r hrp hrd => ?_)
  exact absurd (Nat.dvd_one.mp hrd) hrp.ne_one

/-- An enumd extension of pp satisfies CondPow. -/
theorem condPow_of_condD {dmax p : ℕ} {ps : List ℕ} {pp v : ℕ}
    (h : CondD dmax ps pp v) : CondPow dmax p ps pp v := by
  obtain ⟨hppv, h2, hle, hsm⟩ := h
  refine ⟨hppv, ?_, hle, ?_⟩
  · intro h0
    rw [h0, Nat.zero_div] at h2
    omega
  · exact fun r hrlt hrp hrd => List.mem_cons_of_mem p (hsm r hrlt hrp hrd)

/-- A value of the deeper power loop at pp*p satisfies CondPow at pp. -/
theorem condPow_of_ext {dmax p : ℕ} {ps : List ℕ} {pp v : ℕ}
    (hp : Nat.Prime p) (hpp : 1 ≤ pp)
    (h : CondPow dmax p ps (pp * p) v) : CondPow dmax p ps pp v := by
  obtain ⟨hpv, hv0, hle, hsm⟩ := h
  have hpos : 0 < pp := hpp
  have hw := div_split hpos hpv
  have hw2ne : v / (pp * p) ≠ 0 := by
    intro h0
    have hvv := Nat.mul_div_cancel' hpv
    rw [h0, mul_zero] at hvv
    exact hv0 hvv.symm
  refine ⟨(dvd_mul_right pp p).trans hpv, hv0, hle, ?_⟩
  rw [hw]
  refine smoothOver_of (fun r hrp hrd => ?_)
  rcases (Nat.Prime.dvd_mul hrp).mp hrd with h | h
  · exact List.mem_cons.mpr (Or.inl ((Nat.prime_dvd_prime_iff_eq hrp hp).mp h))
  · exact smoothOver_def hsm r hrp h hw2ne

/-- Every CondPow value is the bare power, an enumd extension, or a deeper
power value. -/
theorem condPow_split {dmax p : ℕ} {ps : List ℕ} {pp v : ℕ}
    (hpp : 1 ≤ pp) (h : CondPow dmax p ps pp v) :
    v = pp ∨ CondD dmax ps pp v ∨ CondPow dmax p ps (pp * p) v := by
  obtain ⟨hpv, hv0, hle, hsm⟩ := h
  have hpos : 0 < pp := hpp
  have hvw : v = pp * (v / pp) := (Nat.mul_div_cancel' hpv).symm
  have hwne : v / pp ≠ 0 := by
    intro h0
    rw [h0, mul_zero] at hvw
    exact hv0 hvw
  rcases Nat.lt_or_ge (v / pp) 2 with hlt | hge
  · left
    have h1 : v / pp = 1 :=
      Nat.le_antisymm (Nat.lt_succ_iff.mp hlt) (Nat.pos_of_ne_zero hwne)
    rw [h1, mul_one] at hvw
    exact hvw
  · by_cases hpd : p ∣ v / pp
    · right; right
      have hppv : pp * p ∣ v := by
        obtain ⟨c, rfl⟩ := hpv
        rw [Nat.mul_div_cancel_left c hpos] at hpd
        exact mul_dvd_mul_left pp hpd
      have hwrel := div_split hpos hppv
      refine ⟨hppv, hv0, hle, ?_⟩
      refine smoothOver_of (fun r hrp hrd => ?_)
      refine smoothOver_def hsm r hrp ?_ hwne
      exact hrd.trans (by rw [hwrel]; exact dvd_mul_left _ p)
    · right; left
      refine ⟨hpv, hge, hle, ?_⟩
      refine smoothOver_of (fun r hrp hrd => ?_)
      rcases List.mem_cons.mp (smoothOver_def hsm r hrp hrd hwne) with h | h
      · exact absurd (h ▸ hrd) hpd
      · exact h

/-- The bare power is not an enumd extension. -/
theorem condPow_head_ne_condD {dmax : ℕ} {ps : List ℕ} {pp v : ℕ}
    (hpp : 1 ≤ pp) (hv : v = pp) (h : CondD dmax ps pp v) : False := by
  obtain ⟨_, h2, _, _⟩ := h
  rw [hv, Nat.div_self (by omega : 0 < pp)] at h2
  omega

/-- The bare power is not a deeper power value. -/
theorem condPow_head_ne_ext {dmax p : ℕ} {ps : List ℕ} {pp v : ℕ}
    (hpp : 1 ≤ pp) (hp2 : 2 ≤ p) (hv : v = pp)
    (h : CondPow dmax p ps (pp * p) v) : False := by
  obtain ⟨hdvd, hv0, _, _⟩ := h
  have h1 := Nat.le_of_dvd (by omega : 0 < v) hdvd
  have h2 : pp * 2 ≤ pp * p := Nat.mul_le_mul_left pp hp2
  omega

/-- An enumd extension of pp is not a deeper power value. -/
theorem condPow_condD_ne_ext {dmax p : ℕ} {ps : List ℕ} {pp v : ℕ}
    (hp : Nat.Prime p) (hps : ∀ r ∈ ps, r < p) (hpp : 1 ≤ pp)
    (h1 : CondD dmax ps pp v) (h2 : CondPow dmax p ps (pp * p) v) : False := by
  obtain ⟨hpv, hc2, _, hsm⟩ := h1
  obtain ⟨hppv, hv0, _, _⟩ := h2
  have hpd : p ∣ v / pp := by
    rw [div_split (by omega : 0 < pp) hppv]
    exact dvd_mul_right p _
  have hmem := smoothOver_def hsm p hp hpd (by omega)
  exact absurd (hps p hmem) (lt_irrefl p)

/-- Counting form of the power-loop unfolding. -/
theorem condPow_step_count (dmax p : ℕ) (ps : List ℕ) (pp v : ℕ)
    (hp : Nat.Prime p) (hps : ∀ r ∈ ps, r < p) (hpp : 1 ≤ pp)
    (hle : pp ≤ dmax) :
    (if CondPow dmax p ps pp v then 1 else 0) =
      ((if v = pp then 1 else 0) +
        ((if CondD dmax ps pp v then 1 else 0) +
          (if CondPow dmax p ps (pp * p) v then 1 else 0)) : ℕ) := by
  by_cases h1 : v = pp
  · rw [if_pos h1, if_pos (condPow_of_head hpp hle h1),
      if_neg (fun h => condPow_head_ne_condD hpp h1 h),
      if_neg (fun h => condPow_head_ne_ext hpp hp.two_le h1 h)]
  · rw [if_neg h1]
    by_cases h2 : CondD dmax ps pp v
    · rw [if_pos h2, if_pos (condPow_of_condD h2),
        if_neg (fun h => condPow_condD_ne_ext hp hps hpp h2 h)]
    · rw [if_neg h2]
      by_cases h3 : CondPow dmax p ps (pp * p) v
      · rw [if_pos h3, if_pos (condPow_of_ext hp hpp h3)]
      · rw [if_neg h3,
          if_neg (fun h => (condPow_split hpp h).elim h1 (fun h => h.elim h2 h3))]

/-- The counting invariant of the per-prime power loop: each admissible value
pp * p^e * c is processed exactly once. -/
theorem powProc_count (dmax fuel : ℕ) (ps : List ℕ) (p : ℕ)
    (hp : Nat.Prime p) (hdec : DecPrimes ps) (hps : ∀ r ∈ ps, r < p)
    (hfuel : 2 * ps.length + 2 * dmax + 1 ≤ fuel) :
    ∀ (fuelP pp : ℕ), 1 ≤ pp → dmax + 1 - pp ≤ fuelP →
      ∀ v, (powProc dmax fuel ps p fuelP pp).count v =
        if CondPow dmax p ps pp v then 1 else 0 := by
  intro fuelP
  induction fuelP with
  | zero =>
    intro pp hpp hfp v
    rw [show powProc dmax fuel ps p 0 pp = [] from rfl, List.count_nil,
      if_neg (condPow_not_of_big (by omega))]
  | succ fuelP ih =>
    intro pp hpp hfp v
    by_cases hguard : pp ≤ dmax
    · have h2p := hp.two_le
      have hstep : pp + 1 ≤ pp * p := by
        have hm := Nat.mul_le_mul_left pp h2p
        omega
      rw [show powProc dmax fuel ps p (fuelP + 1) pp =
          (if pp ≤ dmax then
            (pp :: enumd dmax fuel ps pp) ++ powProc dmax fuel ps p fuelP (pp * p)
          else []) from rfl,
        if_pos hguard, List.count_append, List.count_cons,
        (enum_count dmax fuel).1 ps pp hdec hpp (by omega),
        ih (pp * p) (by omega) (by omega),
        condPow_step_count dmax p ps pp v hp hps hpp hguard]
      simp only [beq_iff_eq]
      have hcomm : (if pp = v then (1 : ℕ) else 0) = if v = pp then 1 else 0 := by
        by_cases h : pp = v
        · rw [if_pos h, if_pos h.symm]
        · rw [if_neg h, if_neg (fun hh => h hh.symm)]
      rw [hcomm]
      omega
    · rw [show powProc dmax fuel ps p (fuelP + 1) pp =
          (if pp ≤ dmax then
            (pp :: enumd dmax fuel ps pp) ++ powProc dmax fuel ps p fuelP (pp * p)
          else []) from rfl,
        if_neg hguard, List.count_nil,
        if_neg (condPow_not_of_big (by omega))]

/-- At the start pp = p the power-loop condition says exactly: v <= dmax is a
nonzero multiple of p all of whose prime factors are p or table primes below
p, i.e. an admissible d with largest prime factor p. -/
theorem condPow_base_iff {dmax p : ℕ} {ps : List ℕ} {v : ℕ} (hp : Nat.Prime p) :
    CondPow dmax p ps p v ↔
      (v ≠ 0 ∧ v ≤ dmax ∧ p ∣ v ∧ SmoothOver (p :: ps) v) := by
  constructor
  · rintro ⟨hpv, hv0, hle, hsm⟩
    refine ⟨hv0, hle, hpv, ?_⟩
    refine smoothOver_of (fun r hrp hrd => ?_)
    have hvv : v = p * (v / p) := (Nat.mul_div_cancel' hpv).symm
    rw [hvv] at hrd
    rcases (Nat.Prime.dvd_mul hrp).mp hrd with h | h
    · exact List.mem_cons.mpr (Or.inl ((Nat.prime_dvd_prime_iff_eq hrp hp).mp h))
    · refine smoothOver_def hsm r hrp h ?_
      intro h0
      rw [h0, mul_zero] at hvv
      exact hv0 hvv
  · rintro ⟨hv0, hle, hpv, hsm⟩
    refine ⟨hpv, hv0, hle, ?_⟩
    refine smoothOver_of (fun r hrp hrd => ?_)
    exact smoothOver_def hsm r hrp (hrd.trans (Nat.div_dvd_of_dvd hpv)) hv0

/-- The k-divisor class list never repeats a class index. -/
theorem kdCalls_nodup (kdmax : ℕ → ℕ) (kdcnt d : ℕ) :
    (kdCalls kdmax kdcnt d).Nodup := by
  unfold kdCalls
  refine List.nodup_cons.mpr ⟨?_, ?_⟩
  · intro hmem
    have h2 := (List.takeWhile_sublist _).subset hmem
    rw [List.mem_range'_1] at h2
    omega
  · exact List.Sublist.nodup (List.takeWhile_sublist _) (List.nodup_range' _ _)

/-- Counting pairs in the k-divisor expansion: the pair (v, ki) occurs once for
each occurrence of v times each occurrence of ki in its class list. -/
theorem count_pair_flatMap (l : List ℕ) (f : ℕ → List ℕ) (v ki : ℕ) :
    (l.flatMap (fun d => (f d).map (fun j => (d, j)))).count (v, ki) =
      l.count v * (f v).count ki := by
  induction l with
  | nil => simp
  | cons d l ih =>
    rw [List.flatMap_cons, List.count_append, ih]
    by_cases h : d = v
    · subst h
      have hmap : ∀ js : List ℕ,
          (List.map (fun j => (d, j)) js).count (d, ki) = js.count ki := by
        intro js
        induction js with
        | nil => rfl
        | cons j js ihj =>
          simp only [List.map_cons, List.count_cons, ihj, beq_iff_eq,
            Prod.mk.injEq]
          by_cases h : ki = j
          · simp [h]
          · simp [h]
      rw [hmap, List.count_cons_self]
      ring
    · have hmap : (List.map (fun j => (d, j)) (f d)).count (v, ki) = 0 := by
        refine List.count_eq_zero.mpr (fun hmem => ?_)
        rw [List.mem_map] at hmem
        obtain ⟨j, _, hj⟩ := hmem
        exact h (Prod.ext_iff.mp hj).1
      rw [hmap, List.count_cons_of_ne (fun hh => h hh.symm)]
      ring

/-- Claim C2: for every admissible d <= dmax whose largest prime factor is the
driving prime p, the per-d dispatcher family is invoked exactly once per
(d, k-divisor class) while p is processed, and never twice for the same d - in
the model: the per-prime processing of p (its powers p^e handed to prockd plus
their enumd extensions over the table primes ps below p, zcubes.c lines
244-281 and 407-417, expanded by prockd's k-divisor classes, lines 185-189)
contains the pair (d, ki) exactly once when d is a nonzero multiple of p, at
most dmax, built only from p and the table primes below p, and ki is one of
the k-divisor classes applicable to d - and zero times otherwise. -/
theorem c2_exactly_once (dmax fuel : ℕ) (ps : List ℕ) (p : ℕ)
    (kdmax : ℕ → ℕ) (kdcnt : ℕ) (v ki : ℕ)
    (hp : Nat.Prime p) (hdec : DecPrimes ps) (hps : ∀ r ∈ ps, r < p)
    (hfuel : 2 * ps.length + 2 * dmax + 1 ≤ fuel) :
    (procdCalls dmax fuel ps p kdmax kdcnt).count (v, ki) =
      if (v ≠ 0 ∧ v ≤ dmax ∧ p ∣ v ∧ SmoothOver (p :: ps) v) ∧
          ki ∈ kdCalls kdmax kdcnt v then 1 else 0 := by
  have hpp : (processP dmax fuel ps p).count v =
      if (v ≠ 0 ∧ v ≤ dmax ∧ p ∣ v ∧ SmoothOver (p :: ps) v) then 1 else 0 := by
    rw [show processP dmax fuel ps p = powProc dmax fuel ps p dmax p from rfl,
      powProc_count dmax fuel ps p hp hdec hps hfuel dmax p hp.pos
        (by have h1 := hp.pos; omega)]
    by_cases h : CondPow dmax p ps p v
    · rw [if_pos h, if_pos ((condPow_base_iff hp).mp h)]
    · rw [if_neg h, if_neg (fun hh => h ((condPow_base_iff hp).mpr hh))]
  unfold procdCalls
  rw [count_pair_flatMap, hpp]
  by_cases h1 : v ≠ 0 ∧ v ≤ dmax ∧ p ∣ v ∧ SmoothOver (p :: ps) v
  · rw [if_pos h1]
    by_cases h2 : ki ∈ kdCalls kdmax kdcnt v
    · rw [List.count_eq_one_of_mem (kdCalls_nodup kdmax kdcnt v) h2,
        if_pos ⟨h1, h2⟩]
    · rw [List.count_eq_zero_of_not_mem h2, if_neg (fun hh => h2 hh.2)]
  · rw [if_neg h1, if_neg (fun hh => h1 hh.1), Nat.zero_mul]

/-- Witness for C2 at a concrete input: dmax = 30, table primes [3, 2] below
p = 5, one k-divisor class with kdmax[1] = 6: the admissible d = 20 = 2^2*5 is
dispatched exactly once in its coprime class 0. -/
theorem c2_exactly_once_witness :
    (procdCalls 30 65 [3, 2] 5 (fun ki => if ki = 1 then 6 else 0) 1).count
      (20, 0) = 1 := by
  rw [c2_exactly_once 30 65 [3, 2] 5 (fun ki => if ki = 1 then 6 else 0) 1 20 0
    (by norm_num)
    (by
      refine ⟨List.Chain.cons (by norm_num) List.Chain.nil, ?_⟩
      intro q hq
      rcases List.mem_cons.mp hq with h | h
      · subst h; norm_num
      · rcases List.mem_cons.mp h with h2 | h2
        · subst h2; norm_num
        · simp at h2)
    (by decide) (by decide)]
  decide
